import Mathlib

/-
Verification of the byteranges library: a shallow embedding of its
request-header construction (request.rs), response classification and
multipart scanning (response.rs), and sparse-body reconstruction
(response.rs), together with theorems settling the specification claims.

Conventions of the embedding:
  - Rust byte slices and `Bytes` values are `List Nat` (each element a byte).
  - Rust `&str` values are `List Char` (the inputs exercised are ASCII, so
    byte indices and char indices coincide).
  - `u64`/`usize` arithmetic is `Nat` with explicit reduction modulo `2 ^ 64`
    (`wadd`, `wsub`) at the operations where Rust overflow can occur; where
    Rust overflow is a panic (debug overflow check, slice out of bounds,
    an explicit `panic!` or `unreachable!`), the embedded function returns
    `none` in an outer `Option`.
  - External collaborators (the `http_content_range` header parser, the
    `httparse` header-block parser, the `rope_rd` sparse rope and its
    `abs_position` helper, the `http` crate header map) are modelled from
    their documented contracts as the specification describes them.
-/

namespace Byteranges

/-- Modulus of `u64`/`usize` arithmetic (64-bit target). -/
def u64Mod : Nat := 2 ^ 64

/-- Wrapping 64-bit addition, the release-mode behaviour of `a + b` on `u64`. -/
def wadd (a b : Nat) : Nat := (a + b) % u64Mod

/-- Wrapping 64-bit subtraction `a - b` for `b ≤ 2^64`, the release-mode
behaviour of `a - b` on `u64`. -/
def wsub (a b : Nat) : Nat := (a + u64Mod - b) % u64Mod

/-- Characters of a string literal. -/
def strChars (s : String) : List Char := s.data

/-- Bytes of an ASCII string (`str::as_bytes`). -/
def charBytes (l : List Char) : List Nat := l.map Char.toNat

/-- ASCII whitespace test, modelling `char::is_whitespace` on the ASCII
fragment: space, tab, line feed, carriage return. -/
def isWsChar (c : Char) : Bool :=
  c.toNat = 32 || c.toNat = 9 || c.toNat = 10 || c.toNat = 13

/-- Drop leading whitespace characters (`str::trim_start`). -/
def trimStartChars : List Char → List Char
  | [] => []
  | c :: rest => if isWsChar c then trimStartChars rest else c :: rest

/-- Drop trailing whitespace characters (`str::trim_end`). -/
def trimEndChars (l : List Char) : List Char :=
  (trimStartChars l.reverse).reverse

/-- Drop whitespace from both ends (`str::trim`). -/
def trimChars (l : List Char) : List Char := trimEndChars (trimStartChars l)

/-- Drop leading occurrences of one character. -/
def trimMatchStart (c : Char) : List Char → List Char
  | [] => []
  | x :: rest => if x = c then trimMatchStart c rest else x :: rest

/-- Drop leading and trailing occurrences of one character
(`str::trim_matches` with a single-char pattern). -/
def trimMatchesChar (c : Char) (l : List Char) : List Char :=
  (trimMatchStart c (trimMatchStart c l).reverse).reverse

/-- Boolean prefix test on lists with decidable equality
(`str::starts_with` / byte-slice comparison). -/
def isPrefixB {α : Type} [DecidableEq α] : List α → List α → Bool
  | [], _ => true
  | _ :: _, [] => false
  | a :: as, b :: bs => if a = b then isPrefixB as bs else false

/-- Split a list at the first occurrence of an element, returning the parts
before and after it; `none` when the element does not occur. -/
def splitOn1 {α : Type} [DecidableEq α] (c : α) : List α → Option (List α × List α)
  | [] => none
  | x :: rest =>
    if x = c then some ([], rest)
    else (splitOn1 c rest).map (fun pr => (x :: pr.1, pr.2))

/-- Decimal parse of a nonempty all-digit character list; `none` otherwise. -/
def parseNatChars (l : List Char) : Option Nat :=
  if l = [] then none
  else l.foldl
    (fun acc c =>
      acc.bind (fun n =>
        if 48 ≤ c.toNat ∧ c.toNat ≤ 57 then some (n * 10 + (c.toNat - 48)) else none))
    (some 0)

/-- Parsed `Content-Range` semantics in the concrete `bytes first-last/total`
form (`http_content_range::ContentRangeBytes`). -/
structure ContentRangeBytes where
  first_byte : Nat
  last_byte : Nat
  complete_length : Nat
  deriving DecidableEq

/-- Parsed `Content-Range` in the `bytes first-last/*` form
(`http_content_range::ContentRangeUnbound`). -/
structure ContentRangeUnbound where
  first_byte : Nat
  last_byte : Nat
  deriving DecidableEq

/-- Parsed `Content-Range` header semantics (`http_content_range::ContentRange`):
a concrete byte range, a range with unknown total, the unsatisfied marker
`bytes */total`, or an unparseable value. -/
inductive ContentRange where
  | Bytes (r : ContentRangeBytes)
  | UnboundBytes (r : ContentRangeUnbound)
  | Unsatisfied (complete_length : Nat)
  | Unknown
  deriving DecidableEq

/-- Model of the external `Content-Range` parsing collaborator
(spec section 3, `ContentRangeInfo`): recognises `bytes a-b/t`,
`bytes a-b/*` and `bytes */t`, anything else is `Unknown`. -/
def contentRangeParseChars (l : List Char) : ContentRange :=
  if isPrefixB (strChars ("bytes ")) l then
    match splitOn1 (Char.ofNat 47) (l.drop 6) with
    | none => ContentRange.Unknown
    | some (rangePart, totalPart) =>
      if rangePart = [Char.ofNat 42] then
        match parseNatChars totalPart with
        | some n => ContentRange.Unsatisfied n
        | none => ContentRange.Unknown
      else
        match splitOn1 (Char.ofNat 45) rangePart with
        | none => ContentRange.Unknown
        | some (fs, ls) =>
          match parseNatChars fs, parseNatChars ls with
          | some f, some la =>
            if totalPart = [Char.ofNat 42] then
              ContentRange.UnboundBytes ⟨f, la⟩
            else
              match parseNatChars totalPart with
              | some t => ContentRange.Bytes ⟨f, la, t⟩
              | none => ContentRange.Unknown
          | _, _ => ContentRange.Unknown
  else ContentRange.Unknown

/-- Byte-slice entry point of the `Content-Range` parser
(`ContentRange::parse_bytes`). -/
def contentRangeParseBytes (bs : List Nat) : ContentRange :=
  contentRangeParseChars (bs.map Char.ofNat)

/-- A component part of a 206 response (`response.rs`, `ResponsePart`). -/
structure ResponsePart where
  content_type : List Char
  content_range : ContentRange
  data : List Nat
  deriving DecidableEq

/-- Offset and length of a content range (`response.rs`, `offset_len`):
`(first_byte, last_byte - first_byte + 1)` with wrapping `u64` arithmetic,
`none` for unsatisfied or unknown ranges. -/
def offset_len : ContentRange → Option (Nat × Nat)
  | ContentRange.Bytes r => some (r.first_byte, wadd (wsub r.last_byte r.first_byte) 1)
  | ContentRange.UnboundBytes r => some (r.first_byte, wadd (wsub r.last_byte r.first_byte) 1)
  | ContentRange.Unsatisfied _ => none
  | ContentRange.Unknown => none

/-- Reported complete length of a part (`ResponsePart::total_size`):
only the concrete `Bytes` form carries one. -/
def total_size (p : ResponsePart) : Option Nat :=
  match p.content_range with
  | ContentRange.Bytes r => some r.complete_length
  | _ => none

/-- Description of partial-response headers (`response.rs`, `PartDesc`). -/
inductive PartDesc where
  | Single (content_range : ContentRange) (content_type : List Char)
  | Multi (boundary : List Nat)
  deriving DecidableEq

/-- Classification failures (`response.rs`, `PartialHeaderParseError`). -/
inductive PartialHeaderParseError where
  | Unsatisfied
  | NotPartialResponse (status : Nat)
  | NoContentType
  | NoContentRange
  | ContentRangeParse (raw : List Char)
  deriving DecidableEq

/-- The `multipart/byteranges` content-type prefix (`response.rs`, `BYTERANGES`). -/
def BYTERANGES : List Char := strChars ("multipart/byteranges")

/-- The multipart then-branch of `part_description`, on the trimmed
content type `s`: extract the boundary and return `Multi`. The `Option`
models panics: `none` is returned exactly where the Rust slices
`s[..BYTERANGES.len() + 1]` and `[9..]` are out of bounds. Note the
faithful boundary-extraction slice: the code takes the first 21 bytes of
the content type (`s[..BYTERANGES.len() + 1]`), not the remainder after
the prefix. -/
def multipartBranch (s : List Char) : Option (Except PartialHeaderParseError PartDesc) :=
  if s.length < BYTERANGES.length + 1 then none
  else
    let t := trimStartChars (s.take (BYTERANGES.length + 1))
    if t.length < 9 then none
    else
      let boundary_str :=
        trimMatchesChar (Char.ofNat 39) (trimMatchesChar (Char.ofNat 34) (t.drop 9))
      some (Except.ok (PartDesc.Multi (charBytes (strChars ("--") ++ boundary_str))))

/-- The single-range else-branch of `part_description`: require and parse
`Content-Range`; a value parsing as unsatisfied hits the `unreachable!()`
(modelled as `none`), an unparseable value is the typed
`ContentRangeParse` failure. -/
def singleBranch (s : List Char) (content_range : Option (List Char)) :
    Option (Except PartialHeaderParseError PartDesc) :=
  match content_range with
  | none => some (Except.error PartialHeaderParseError.NoContentRange)
  | some crs =>
    match contentRangeParseChars crs with
    | ContentRange.Unsatisfied _ => none
    | ContentRange.Unknown =>
      some (Except.error (PartialHeaderParseError.ContentRangeParse crs))
    | cr => some (Except.ok (PartDesc.Single cr s))

/-- Classification of a maybe-partial response
(`response.rs`, `MaybePartialResponse::part_description`), from the status
code and the `Content-Type` and `Content-Range` header values. The outer
`Option` models panics (see `multipartBranch` and `singleBranch`). -/
def part_description (status : Nat) (content_type : Option (List Char))
    (content_range : Option (List Char)) :
    Option (Except PartialHeaderParseError PartDesc) :=
  if status = 416 then some (Except.error PartialHeaderParseError.Unsatisfied)
  else if status = 206 then
    match content_type with
    | none => some (Except.error PartialHeaderParseError.NoContentType)
    | some ct0 =>
      let s := trimChars ct0
      if isPrefixB BYTERANGES s then multipartBranch s
      else singleBranch s content_range
  else some (Except.error (PartialHeaderParseError.NotPartialResponse status))

/-- One bound of a rust range (`std::ops::Bound<u64>`). -/
inductive RangeBound where
  | Unbounded
  | Included (n : Nat)
  | Excluded (n : Nat)
  deriving DecidableEq

/-- A single range of a `Range` request header (`request.rs`, `HttpRange`). -/
inductive HttpRange where
  | Range (start : Nat) (stop : Option Nat)
  | Suffix (n : Nat)
  deriving DecidableEq

/-- Conversion of a rust range into an `HttpRange`
(`request.rs`, `impl<T: RangeBounds<u64>> From<T> for HttpRange`).
The `Option` models the `u64` overflow panics of `i + 1` on an excluded
lower bound at `u64::MAX` and of `i - 1` on an excluded upper bound at `0`
(debug overflow checks). -/
def rangeFromBounds (sb eb : RangeBound) : Option HttpRange :=
  match (match sb with
         | RangeBound.Included i => some i
         | RangeBound.Excluded i => if i + 1 < u64Mod then some (i + 1) else none
         | RangeBound.Unbounded => some 0) with
  | none => none
  | some s =>
    match (match eb with
           | RangeBound.Included i => some (some i)
           | RangeBound.Excluded i => if i = 0 then none else some (some (i - 1))
           | RangeBound.Unbounded => some none) with
    | none => none
    | some e => some (HttpRange.Range s e)

/-- CRLF bytes. -/
def crlfBytes : List Nat := [13, 10]

/-- Two hyphens, the end-of-body marker after the final boundary. -/
def dashBytes : List Nat := [45, 45]

/-- Split a byte list at the first CRLF; `none` when no CRLF occurs. -/
def splitCrlf : List Nat → Option (List Nat × List Nat)
  | [] => none
  | 13 :: 10 :: rest => some ([], rest)
  | b :: rest => (splitCrlf rest).map (fun pr => (b :: pr.1, pr.2))

/-- Valid header-name byte (model of the `httparse` token table): printable
ASCII other than the colon. -/
def headerNameOk (name : List Nat) : Bool :=
  decide (name ≠ []) && name.all (fun b => 33 ≤ b && b ≤ 126 && b != 58)

/-- Drop leading spaces and horizontal tabs of a header value. -/
def skipLeadingWs : List Nat → List Nat
  | 32 :: rest => skipLeadingWs rest
  | 9 :: rest => skipLeadingWs rest
  | bs => bs

/-- Model of the external `httparse::parse_headers` collaborator (spec
section 4.3: pairs of `name: value` lines terminated by a blank line).
Result shape: outer `none` is a parse error (`Err`, including the
too-many-headers error past `cap` headers), `some none` is a partial parse
(buffer ended before the blank line), and `some (some (idx, headers))` is a
complete parse consuming `idx` bytes. `fuel` bounds the recursion and is
always sufficient at `buf.length + 1`. -/
def parseHeadersAux : Nat → List Nat → Nat → Nat → List (List Nat × List Nat) →
    Option (Option (Nat × List (List Nat × List Nat)))
  | 0, _, _, _, _ => some none
  | _ + 1, 13 :: 10 :: _, consumed, _, acc => some (some (consumed + 2, acc.reverse))
  | fuel + 1, buf, consumed, cap, acc =>
    match splitCrlf buf with
    | none => some none
    | some (line, rest) =>
      if cap = 0 then none
      else
        match splitOn1 58 line with
        | none => none
        | some (name, after) =>
          if headerNameOk name then
            parseHeadersAux fuel rest (consumed + line.length + 2) (cap - 1)
              ((name, skipLeadingWs after) :: acc)
          else none

/-- Parse a header block with the ten-header buffer used by `Parts::next`
(`[EMPTY_HEADER; 10]`). -/
def parse_headers (buf : List Nat) : Option (Option (Nat × List (List Nat × List Nat))) :=
  parseHeadersAux (buf.length + 1) buf 0 10 []

/-- First offset at which `bnd` occurs as a sub-list (the first matching
window of the sliding-window scan); `none` when it never occurs. -/
def findOffset (bnd : List Nat) : List Nat → Option Nat
  | [] => none
  | b :: rest =>
    if (b :: rest).take bnd.length = bnd then some 0
    else (findOffset bnd rest).map (fun n => n + 1)

/-- Iterator state over parts of a 206 response (`response.rs`, `Parts`). -/
structure Parts where
  part_desc : PartDesc
  body : List Nat
  is_done : Bool
  next_start : Nat
  deriving DecidableEq

/-- Constructor of the parts iterator (`Parts::new`): for a multipart
description, scan for the first boundary occurrence and inspect the two
bytes after it; CRLF starts part scanning there, two hyphens mean the body
is already exhausted. The outer `Option` models panics: `none` is returned
exactly where the Rust code panics, namely `windows(0)` on an empty
boundary, the out-of-bounds slice `body[end_idx..end_idx + 2]` when fewer
than two bytes follow the boundary, and the explicit `panic!` when those
two bytes are neither CRLF nor two hyphens. -/
def partsNew (part_desc : PartDesc) (body : List Nat) : Option Parts :=
  match part_desc with
  | PartDesc.Single cr ct => some ⟨PartDesc.Single cr ct, body, false, 0⟩
  | PartDesc.Multi boundary =>
    if boundary = [] then none
    else
      match findOffset boundary body with
      | none => some ⟨PartDesc.Multi boundary, body, false, 0⟩
      | some start_idx =>
        let end_idx := start_idx + boundary.length
        if body.length < end_idx + 2 then none
        else
          let tail := (body.drop end_idx).take 2
          if tail = crlfBytes then some ⟨PartDesc.Multi boundary, body, false, end_idx + 2⟩
          else if tail = dashBytes then some ⟨PartDesc.Multi boundary, body, true, 0⟩
          else none

/-- Lowercase ASCII letters of a byte list (`str::to_lowercase` on the
ASCII fragment exercised by header names). -/
def lowerBytes (bs : List Nat) : List Nat :=
  bs.map (fun b => if 65 ≤ b ∧ b ≤ 90 then b + 32 else b)

/-- UTF-8 validation model restricted to the ASCII fragment
(`String::from_utf8`; the embedded scanner never reaches this conversion
with non-ASCII bytes in the cases settled here). -/
def utf8String (bs : List Nat) : Option (List Char) :=
  if bs.all (fun b => b < 128) then some (bs.map Char.ofNat) else none

/-- The `let Some(cr) = .. else`, `let Some(ct) = .. else` block of
`Parts::next`, reached after each matched header: a missing `Content-Range`
or `Content-Type`, or an invalid UTF-8 content type, yields the part parse
error, otherwise the finished part. -/
def checkHeaders (data : List Nat) (content_range : Option ContentRange)
    (content_type : Option (List Nat)) : Option (Except Unit ResponsePart) :=
  match content_range with
  | none => some (Except.error ())
  | some cr =>
    match content_type with
    | none => some (Except.error ())
    | some ct =>
      match utf8String ct with
      | none => some (Except.error ())
      | some ct_s => some (Except.ok ⟨ct_s, cr, data⟩)

/-- The header loop of `Parts::next` (`for head in heads.iter()`), faithful
to the source: the completeness check `checkHeaders` sits inside the loop
body and runs after every matched header, and the `break` arms (taken when
the other header was already recorded) leave the loop without returning.
`some item` is a `return` from `next`; `none` means the loop fell through,
after which the outer window scan continues. -/
def innerHeaderLoop (data : List Nat) :
    List (List Nat × List Nat) → Option ContentRange → Option (List Nat) →
    Option (Except Unit ResponsePart)
  | [], _, _ => none
  | (name, value) :: rest, content_range, content_type =>
    if lowerBytes name = charBytes (strChars ("content-range")) then
      let content_range2 := some (contentRangeParseBytes value)
      if content_type.isSome then none
      else checkHeaders data content_range2 content_type
    else if lowerBytes name = charBytes (strChars ("content-type")) then
      let content_type2 := some value
      if content_range.isSome then none
      else checkHeaders data content_range content_type2
    else innerHeaderLoop data rest content_range content_type

/-- The window scan of `Parts::next`: try window offsets `off`
(`rem` of them remaining) over the slice `origSlice = body[ns0..]` captured
at loop entry, threading the mutable `next_start` (`ns`) and `is_done` (`d`)
fields. The outer `Option` models panics: `none` is returned exactly where
the Rust code panics, namely the `usize` underflow of
`offset + next_start - 2`, a `Bytes::slice` call with a reversed or
out-of-range interval, the out-of-bounds two-byte tail index, and the
explicit `panic!` when the tail is neither CRLF nor two hyphens.
`some (ns, d, none)` is the iterator returning `None`;
`some (ns, d, some item)` is a returned element. -/
def scanLoop (bnd body origSlice : List Nat) :
    Nat → Nat → Nat → Bool → Option (Nat × Bool × Option (Except Unit ResponsePart))
  | 0, _, ns, d => some (ns, d, none)
  | rem + 1, off, ns, d =>
    if (origSlice.drop off).take bnd.length = bnd then
      if off + ns < 2 then none
      else
        let prev_end := off + ns - 2
        if prev_end < ns then none
        else if body.length < prev_end then none
        else
          let slice := (body.drop ns).take (prev_end - ns)
          let ns2 := ns + off + bnd.length + 2
          if body.length < ns2 then none
          else
            let tail := (body.drop (ns2 - 2)).take 2
            if tail = crlfBytes ∨ tail = dashBytes then
              let d2 := decide (tail = dashBytes)
              match parse_headers slice with
              | none => some (ns2, d2, some (Except.error ()))
              | some none => some (ns2, d2, some (Except.error ()))
              | some (some (idx, heads)) =>
                match innerHeaderLoop (slice.drop idx) heads none none with
                | some item => some (ns2, d2, some item)
                | none => scanLoop bnd body origSlice rem (off + 1) ns2 d2
            else none
    else scanLoop bnd body origSlice rem (off + 1) ns d

/-- One step of the parts iterator (`Parts::next`). `none` models a panic
inside the step; `some (st, none)` is the iterator returning `None`;
`some (st, some item)` is a yielded element with the updated state. -/
def partsNext (st : Parts) : Option (Parts × Option (Except Unit ResponsePart)) :=
  if st.is_done then some (st, none)
  else
    match st.part_desc with
    | PartDesc.Single cr ct =>
      some (⟨st.part_desc, st.body, true, st.next_start⟩, some (Except.ok ⟨ct, cr, st.body⟩))
    | PartDesc.Multi bnd =>
      if bnd = [] then none
      else
        let origSlice := st.body.drop st.next_start
        match scanLoop bnd st.body origSlice (origSlice.length + 1 - bnd.length) 0
            st.next_start st.is_done with
        | none => none
        | some (ns, d, res) => some (⟨st.part_desc, st.body, d, ns⟩, res)

/-- One segment handed to the sparse rope (`rope_rd::sparse::Part`):
either a zero-filler of known length (`Part::Empty(Spacer::new(len))`) or a
part's bytes (`Part::Full` over the part's data). -/
inductive SegPart where
  | Empty (len : Nat)
  | Full (data : List Nat)
  deriving DecidableEq

/-- Ordered insertion into the `BTreeMap` keyed by start offset, with the
occupied-entry policy of `make_sparse_body`: an existing entry of the same
key is replaced only when its stored length is strictly smaller. Entries
are `(offset, len, part)` tuples ordered by offset, matching the map's
ascending iteration order. -/
def mapInsert (tup : Nat × Nat × ResponsePart) :
    List (Nat × Nat × ResponsePart) → List (Nat × Nat × ResponsePart)
  | [] => [tup]
  | e :: rest =>
    if tup.1 < e.1 then tup :: e :: rest
    else if tup.1 = e.1 then (if e.2.1 < tup.2.1 then tup else e) :: rest
    else e :: mapInsert tup rest

/-- The per-part step of the first loop of `make_sparse_body`: skip parts
without a usable `(offset, len)`, fold the running total length (the
reported complete length when the part has one, otherwise `offset + len`),
and insert into the offset-keyed map. -/
def collectStep (acc : Nat × List (Nat × Nat × ResponsePart)) (p : ResponsePart) :
    Nat × List (Nat × Nat × ResponsePart) :=
  match offset_len p.content_range with
  | none => acc
  | some (o, l) =>
    let t := match total_size p with
      | some total => max acc.1 total
      | none => max acc.1 (wadd o l)
    (t, mapInsert (o, l, p) acc.2)

/-- The first loop of `make_sparse_body`: total length and deduplicated
offset-keyed map over all parts. -/
def collectParts (ps : List ResponsePart) : Nat × List (Nat × Nat × ResponsePart) :=
  ps.foldl collectStep (0, [])

/-- The second loop of `make_sparse_body`: walk the map in ascending offset
order, emitting a filler for each gap before a part and the part's own data
segment, returning the built `(start, part)` list and the final cursor
`idx`. -/
def buildStartParts : List (Nat × Nat × ResponsePart) → Nat → List (Nat × SegPart) × Nat
  | [], idx => ([], idx)
  | (o, l, p) :: rest, idx =>
    let gap : List (Nat × SegPart) := if idx < o then [(idx, SegPart.Empty (o - idx))] else []
    let built := buildStartParts rest (wadd o l)
    (gap ++ (o, SegPart.Full p.data) :: built.1, built.2)

/-- The segment list and total length assembled by `make_sparse_body`:
the built segments, a trailing filler up to the total length when needed,
and the computed total length handed to `Node::partition_with_starts`. -/
def make_sparse_segments (ps : List ResponsePart) : List (Nat × SegPart) × Nat :=
  let c := collectParts ps
  let b := buildStartParts c.2 0
  (b.1 ++ (if b.2 < c.1 then [(b.2, SegPart.Empty (c.1 - b.2))] else []), c.1)

/-- Bytes produced by one segment: a filler reads as zero bytes, a data
segment reads as the part's bytes. -/
def segBytes : SegPart → List Nat
  | SegPart.Empty n => List.replicate n 0
  | SegPart.Full d => d

/-- Model of the external rope collaborator (`rope_rd::Node`, spec
section 3 `SparseResource`): the partition reads as the concatenation of
its segments' bytes. -/
def flattenSegs (segs : List (Nat × SegPart)) : List Nat :=
  (segs.map (fun s => segBytes s.2)).flatten

/-- Seek origin (`std::io::SeekFrom`). -/
inductive SeekFrom where
  | Start (n : Nat)
  | Current (d : Int)
  | End (d : Int)
  deriving DecidableEq

/-- Model of the external `rope_rd::util::abs_position` collaborator:
resolve a seek target against the current position and the end position
(the total length), failing exactly when the result would be negative. -/
def abs_position (pos len : Nat) (sf : SeekFrom) : Option Nat :=
  match sf with
  | SeekFrom.Start n => some n
  | SeekFrom.Current d =>
    if (pos : Int) + d < 0 then none else some ((pos : Int) + d).toNat
  | SeekFrom.End d =>
    if (len : Int) + d < 0 then none else some ((len : Int) + d).toNat

/-- Reconstructed sparse body in its partial form (`SparseBody` over the
rope): the segment partition, the established total length, and the
current logical position. -/
structure SparseState where
  segs : List (Nat × SegPart)
  total : Nat
  pos : Nat
  deriving DecidableEq

/-- The sparse body built from a collection of parts
(`make_sparse_body`), positioned at the start. -/
def sparseFromParts (ps : List ResponsePart) : SparseState :=
  ⟨(make_sparse_segments ps).1, (make_sparse_segments ps).2, 0⟩

/-- Seek on the sparse body (`impl Seek for SparseBody`, partial case):
resolve the target against the established total length; `none` models the
io error on a negative resolved position. -/
def sparseSeek (st : SparseState) (sf : SeekFrom) : Option SparseState :=
  (abs_position st.pos st.total sf).map (fun p => ⟨st.segs, st.total, p⟩)

/-- Reading the remainder of the sparse body from the current position
(`Read::read_to_end` through the rope model). -/
def sparseReadToEnd (st : SparseState) : List Nat :=
  (flattenSegs st.segs).drop st.pos

/-- Read/seek wrapper over a plain byte buffer (`response.rs`, `BytesRS`). -/
structure BytesRS where
  bytes : List Nat
  position : Nat
  deriving DecidableEq

/-- Seek on the byte-buffer wrapper (`impl Seek for BytesRS`), through the
same `abs_position` helper with the buffer length as the end position. -/
def bytesSeek (b : BytesRS) (sf : SeekFrom) : Option BytesRS :=
  (abs_position b.position b.bytes.length sf).map (fun p => ⟨b.bytes, p⟩)

/-- Model of an `http::Response`: status code, header list, body bytes.
Header lookup in the `http` crate is case-insensitive on names and returns
the first matching header. -/
structure HttpResponse where
  status : Nat
  headers : List (List Char × List Char)
  body : List Nat
  deriving DecidableEq

/-- Case-insensitive lowering of header-name characters. -/
def lowerChars (l : List Char) : List Char := l.map Char.toLower

/-- First header value whose name matches case-insensitively
(`HeaderMap::get`). -/
def headerGet (headers : List (List Char × List Char)) (name : List Char) :
    Option (List Char) :=
  match headers with
  | [] => none
  | (n, v) :: rest => if lowerChars n = lowerChars name then some v else headerGet rest name

/-- The `content_type_str` of the `http` adapter
(`impls/http_impl.rs`): the `Content-Type` header value. -/
def httpContentTypeStr (r : HttpResponse) : Option (List Char) :=
  headerGet r.headers (strChars ("Content-Type"))

/-- The `content_range_str` of the `http` adapter
(`impls/http_impl.rs`), faithful to the source: it also looks up the
`Content-Type` header, not `Content-Range`. -/
def httpContentRangeStr (r : HttpResponse) : Option (List Char) :=
  headerGet r.headers (strChars ("Content-Type"))

/-- Classification of an `http::Response` through the adapter's header
accessors. -/
def httpPartDescription (r : HttpResponse) :
    Option (Except PartialHeaderParseError PartDesc) :=
  part_description r.status (httpContentTypeStr r) (httpContentRangeStr r)

/-- Total length of a part collection as the claim words it: the maximum,
over every part with a usable `(offset, length)`, of both the part's
reported complete length and the part's own `offset + length`. Stated from
the claim's words for comparison with the code's `collectParts`. -/
def specTotalStep (acc : Nat) (p : ResponsePart) : Nat :=
  match offset_len p.content_range with
  | none => acc
  | some (o, l) =>
    match total_size p with
    | some t => max acc (max t (o + l))
    | none => max acc (o + l)

/-- Fold of `specTotalStep` over a part collection (claim-side total). -/
def specTotalLength (ps : List ResponsePart) : Nat :=
  ps.foldl specTotalStep 0

/-- Contribution of one part to the code's running total length: its
reported complete length when it has one, otherwise its `offset + length`
(zero for unusable parts). -/
def partContribution (p : ResponsePart) : Nat :=
  match offset_len p.content_range with
  | none => 0
  | some (o, l) =>
    match total_size p with
    | some t => t
    | none => wadd o l

/-- Start offset of a converted rust range bound as the claim words it:
`a` for a bound at `a` (inclusive `a`, or `a + 1` for an exclusive bound),
and `0` for an unbounded lower bound. -/
def boundStart : RangeBound → Nat
  | RangeBound.Unbounded => 0
  | RangeBound.Included i => i
  | RangeBound.Excluded i => i + 1

/-- End of a converted rust range bound as the claim words it: `b` for an
inclusive bound `[a, b]`, `b - 1` for an exclusive bound `[a, b)`, and
`none` for an open-ended range `[a, ∞)`. -/
def boundStop : RangeBound → Option Nat
  | RangeBound.Unbounded => none
  | RangeBound.Included i => some i
  | RangeBound.Excluded i => some (i - 1)

/-- Boundary of the worked multipart body: the wire delimiter `--b`. -/
def c1Boundary : List Nat := charBytes (strChars ("--b"))

/-- A well-formed multipart body for boundary token `b`: the boundary,
CRLF, a header block carrying both `Content-Type` and `Content-Range`
terminated by a blank line, the part data, CRLF, and the terminal
boundary followed by two hyphens. -/
def c1Body : List Nat :=
  charBytes (strChars ("--b\r\nContent-Type: text/plain\r\nContent-Range: bytes 0-4/10\r\n\r\nhello\r\n--b--"))

/-- Scanner state after `Parts::new` on the worked body: part scanning
starts right after the first boundary's CRLF. -/
def c1StateAfterNew : Parts := ⟨PartDesc.Multi c1Boundary, c1Body, false, 5⟩

/-- Scanner state after the first `next` call on the worked body: the
terminal marker was seen and the cursor sits at the end of the body. -/
def c1StateDone : Parts := ⟨PartDesc.Multi c1Boundary, c1Body, true, 74⟩

/-- Claim C1: on a body made of one well-formed part (boundary, CRLF,
header block with both `Content-Type` and `Content-Range`, blank line,
data, terminal boundary with two hyphens), the iterator is claimed to
yield exactly one `Ok(ResponsePart)`. The code instead yields
`Err(PartParseError)` for the well-formed part, because the
header-completeness check sits inside the per-header loop and fires at the
first recognised header, and then the iteration ends. -/
theorem c1_scanner_rejects_wellformed_part :
    partsNew (PartDesc.Multi c1Boundary) c1Body = some c1StateAfterNew ∧
    partsNext c1StateAfterNew = some (c1StateDone, some (Except.error ())) ∧
    partsNext c1StateDone = some (c1StateDone, none) :=
  ⟨rfl, rfl, rfl⟩

/-- Content type of the worked multipart classification input. -/
def c2ContentType : List Char := strChars ("multipart/byteranges; boundary=X")

/-- Claim C2: classifying a 206 response whose content type is
`multipart/byteranges; boundary=X` is claimed to yield
`Multi{boundary = "--X"}`. The code instead extracts the boundary from the
first 21 bytes of the content type (`s[..BYTERANGES.len() + 1]`), yielding
a constant boundary (two hyphens followed by `/byteranges;`) whatever the
token `X` is. -/
theorem c2_boundary_misextracted :
    part_description 206 (some c2ContentType) none =
      some (Except.ok (PartDesc.Multi (charBytes (strChars ("--/byteranges;"))))) ∧
    charBytes (strChars ("--/byteranges;")) ≠ charBytes (strChars ("--X")) :=
  ⟨rfl, by decide⟩

/-- Boundary of the malformed-framing input of claim C4. -/
def c4Boundary : List Nat := charBytes (strChars ("--b"))

/-- A body whose only boundary occurrence is followed by two bytes that
are neither CRLF nor two hyphens. -/
def c4Body : List Nat := charBytes (strChars ("--bXY"))

/-- Claim C4 counterexample: the claim says a boundary not followed by
CRLF or two hyphens is surfaced as a typed failure; `Parts::new` instead
hits its explicit `panic!` there (modelled as `none`). -/
theorem c4_counterexample :
    partsNew (PartDesc.Multi c4Boundary) c4Body = none := by decide

/-- A part whose reported complete length (2) is smaller than its own
`offset + length` (10): `Content-Range: bytes 0-9/2`. -/
def c5Part : ResponsePart := ⟨[], ContentRange.Bytes ⟨0, 9, 2⟩, List.replicate 10 7⟩

/-- Claim C5 counterexample: for a part reporting a complete length
smaller than its own `offset + length`, the code's total is the reported
complete length alone (2), not the claimed maximum of both (10): when a
part reports a total, its `offset + length` is ignored. -/
theorem c5_counterexample :
    (make_sparse_segments [c5Part]).2 = 2 ∧ specTotalLength [c5Part] = 10 ∧
    (make_sparse_segments [c5Part]).2 ≠ specTotalLength [c5Part] := by decide

/-- Claim C5 amended: the total length is the maximum over usable parts of
the reported complete length when the part reports one and of
`offset + length` otherwise; this agrees with the claimed maximum of both
exactly when every reported complete length is at least the part's own
`offset + length`. -/
theorem c5_amended (ps : List ResponsePart)
    (h : ∀ p ∈ ps, ∀ o l, offset_len p.content_range = some (o, l) →
      o + l < u64Mod ∧ ∀ t, total_size p = some t → o + l ≤ t) :
    (make_sparse_segments ps).2 = specTotalLength ps := by
  have main : ∀ (qs : List ResponsePart) (a : Nat) (m : List (Nat × Nat × ResponsePart)),
      (∀ p ∈ qs, ∀ o l, offset_len p.content_range = some (o, l) →
        o + l < u64Mod ∧ ∀ t, total_size p = some t → o + l ≤ t) →
      (qs.foldl collectStep (a, m)).1 = qs.foldl specTotalStep a := by
    intro qs
    induction qs with
    | nil => intro a m _; rfl
    | cons p rest ih =>
      intro a m hq
      have hp := hq p (List.mem_cons_self p rest)
      have hrest : ∀ p2 ∈ rest, ∀ o l, offset_len p2.content_range = some (o, l) →
          o + l < u64Mod ∧ ∀ t, total_size p2 = some t → o + l ≤ t :=
        fun p2 hm => hq p2 (List.mem_cons_of_mem p hm)
      simp only [List.foldl_cons]
      rcases hol : offset_len p.content_range with _ | ⟨o, l⟩
      · simp only [collectStep, specTotalStep, hol]
        exact ih a m hrest
      · obtain ⟨hlt, hcons⟩ := hp o l hol
        have hw : wadd o l = o + l := Nat.mod_eq_of_lt hlt
        rcases hts : total_size p with _ | t
        · simp only [collectStep, specTotalStep, hol, hts, hw]
          exact ih _ _ hrest
        · have hle : o + l ≤ t := hcons t hts
          have hmax : max t (o + l) = t := Nat.max_eq_left hle
          simp only [collectStep, specTotalStep, hol, hts, hmax]
          exact ih _ _ hrest
  exact main ps 0 [] h

/-- Longer of the two duplicate-offset parts of claim C6: offsets `[0, 4]`
with no reported total. -/
def c6PartA : ResponsePart := ⟨[], ContentRange.UnboundBytes ⟨0, 4⟩, List.replicate 5 1⟩

/-- Shorter duplicate-offset part of claim C6: offsets `[0, 2]` with
reported complete length 100. -/
def c6PartB : ResponsePart := ⟨[], ContentRange.Bytes ⟨0, 2, 100⟩, List.replicate 3 2⟩

/-- Claim C6 counterexample: with two parts sharing start offset 0, the
longer (length 5) is kept in the map, but the discarded shorter part's
reported complete length (100) still drives the total length: the result
is 100 bytes long instead of the 5 bytes the longer part alone would give,
so the discarded part affects the result far beyond the longer part's
extent. -/
theorem c6_counterexample :
    (collectParts [c6PartA, c6PartB]).2 = [(0, 5, c6PartA)] ∧
    (make_sparse_segments [c6PartA]).2 = 5 ∧
    (make_sparse_segments [c6PartA, c6PartB]).2 = 100 ∧
    (flattenSegs (make_sparse_segments [c6PartA, c6PartB]).1).length = 100 := by decide

/-- Claim C6 amended: of two parts sharing a start offset, only the longer
survives into the data map (in either arrival order), but the discarded
part still contributes its reported complete length (or `offset + length`)
to the total length computation. -/
theorem c6_amended (p q : ResponsePart) (o lp lq : Nat)
    (hp : offset_len p.content_range = some (o, lp))
    (hq : offset_len q.content_range = some (o, lq))
    (hlt : lq < lp) :
    (collectParts [p, q]).2 = [(o, lp, p)] ∧
    (collectParts [q, p]).2 = [(o, lp, p)] ∧
    (make_sparse_segments [p, q]).2 = max (partContribution p) (partContribution q) ∧
    (make_sparse_segments [q, p]).2 = max (partContribution p) (partContribution q) := by
  have hmap1 : mapInsert (o, lq, q) [(o, lp, p)] = [(o, lp, p)] := by
    simp only [mapInsert, lt_irrefl, if_neg (lt_irrefl o), if_pos rfl]
    simp [Nat.not_lt.mpr (Nat.le_of_lt hlt)]
  have hmap2 : mapInsert (o, lp, p) [(o, lq, q)] = [(o, lp, p)] := by
    simp only [mapInsert, if_neg (lt_irrefl o), if_pos rfl]
    simp [hlt]
  have hcp : partContribution p = match total_size p with
      | some t => t
      | none => wadd o lp := by
    simp [partContribution, hp]
  have hcq : partContribution q = match total_size q with
      | some t => t
      | none => wadd o lq := by
    simp [partContribution, hq]
  have hone : ∀ r : ResponsePart, ∀ o2 l2, offset_len r.content_range = some (o2, l2) →
      collectStep (0, []) r = (partContribution r, [(o2, l2, r)]) := by
    intro r o2 l2 hr
    simp only [collectStep, partContribution, hr, mapInsert]
    rcases total_size r with _ | t2 <;> simp
  refine ⟨?_, ?_, ?_, ?_⟩
  · simp only [collectParts, List.foldl_cons, List.foldl_nil, hone p o lp hp]
    simp only [collectStep, hq, hmap1]
  · simp only [collectParts, List.foldl_cons, List.foldl_nil, hone q o lq hq]
    simp only [collectStep, hp, hmap2]
  · show (collectParts [p, q]).1 = _
    simp only [collectParts, List.foldl_cons, List.foldl_nil, hone p o lp hp]
    simp only [collectStep, hq, hcq]
    rcases total_size q with _ | tq <;> simp
  · show (collectParts [q, p]).1 = _
    simp only [collectParts, List.foldl_cons, List.foldl_nil, hone q o lq hq]
    simp only [collectStep, hp, hcp]
    rcases total_size p with _ | tp <;> simp [Nat.max_comm]

/-- Claim C7: status 416 always classifies to the `Unsatisfied` failure,
and any status other than 200/206 (and 416, which the code dispatches
first) classifies to `NotPartialResponse` carrying that status, whatever
the header values are. -/
theorem c7_status_dispatch (status : Nat) (ct cr : Option (List Char)) :
    (status = 416 →
      part_description status ct cr = some (Except.error PartialHeaderParseError.Unsatisfied)) ∧
    (status ≠ 200 → status ≠ 206 → status ≠ 416 →
      part_description status ct cr =
        some (Except.error (PartialHeaderParseError.NotPartialResponse status))) := by
  constructor
  · intro h; subst h; rfl
  · intro _ h206 h416
    simp [part_description, h206, h416]

/-- Witness for claim C7 at statuses 416 and 404. -/
theorem c7_witness :
    part_description 416 none none = some (Except.error PartialHeaderParseError.Unsatisfied) ∧
    part_description 404 none none =
      some (Except.error (PartialHeaderParseError.NotPartialResponse 404)) :=
  ⟨(c7_status_dispatch 416 none none).1 rfl,
   (c7_status_dispatch 404 none none).2 (by decide) (by decide) (by decide)⟩

/-- Claim C9 counterexample: the claim says the conversion of every rust
range cannot fail, but converting the half-open range `[0, 0)` (rust
`0..0`) underflows `i - 1` on the excluded upper bound `0` (a panic under
debug overflow checks, modelled as `none`). -/
theorem c9_counterexample :
    rangeFromBounds (RangeBound.Included 0) (RangeBound.Excluded 0) = none := by decide

/-- Claim C9 amended: for every rust range whose excluded upper bound (if
any) is positive and whose excluded lower bound (if any) is below
`u64::MAX`, the conversion cannot fail and yields `end = b` for an
inclusive bound, `end = b - 1` for an exclusive bound, `end = None` for an
unbounded upper bound, and `start = 0` for an unbounded lower bound; an
excluded upper bound of `0` overflows instead. -/
theorem c9_amended (sb eb : RangeBound)
    (hs : ∀ i, sb = RangeBound.Excluded i → i + 1 < u64Mod)
    (he : ∀ i, eb = RangeBound.Excluded i → 0 < i) :
    rangeFromBounds sb eb = some (HttpRange.Range (boundStart sb) (boundStop eb)) := by
  cases sb with
  | Unbounded =>
    cases eb with
    | Unbounded => rfl
    | Included b => rfl
    | Excluded b =>
      have hb : b ≠ 0 := Nat.pos_iff_ne_zero.mp (he b rfl)
      simp [rangeFromBounds, boundStart, boundStop, hb]
  | Included a =>
    cases eb with
    | Unbounded => rfl
    | Included b => rfl
    | Excluded b =>
      have hb : b ≠ 0 := Nat.pos_iff_ne_zero.mp (he b rfl)
      simp [rangeFromBounds, boundStart, boundStop, hb]
  | Excluded a =>
    have ha : a + 1 < u64Mod := hs a rfl
    cases eb with
    | Unbounded => simp [rangeFromBounds, boundStart, boundStop, ha]
    | Included b => simp [rangeFromBounds, boundStart, boundStop, ha]
    | Excluded b =>
      have hb : b ≠ 0 := Nat.pos_iff_ne_zero.mp (he b rfl)
      simp [rangeFromBounds, boundStart, boundStop, ha, hb]

/-- Witness for claim C9 at the half-open range `50..100`. -/
theorem c9_witness :
    rangeFromBounds (RangeBound.Included 50) (RangeBound.Excluded 100) =
      some (HttpRange.Range 50 (some 99)) := by
  have h := c9_amended (RangeBound.Included 50) (RangeBound.Excluded 100)
    (by intro i hi; simp at hi) (by intro i hi; cases hi; decide)
  simpa [boundStart, boundStop] using h

/-- A 206 single-range `http::Response` with a well-formed `Content-Range`
header (`bytes 0-4/10`) and a plain `Content-Type`. -/
def c10Resp : HttpResponse :=
  ⟨206,
   [(strChars ("Content-Type"), strChars ("text/plain")),
    (strChars ("Content-Range"), strChars ("bytes 0-4/10"))],
   []⟩

/-- Claim C10: the `http` adapter's `content_range_str` returns the
`Content-Type` header value for every response, so classifying a 206
single-range `http::Response` parses the `Content-Type` value where the
`Content-Range` value is required: the worked response, whose real
`Content-Range` is valid, fails with `ContentRangeParse("text/plain")`. -/
theorem c10_adapter_returns_content_type :
    (∀ r : HttpResponse, httpContentRangeStr r = httpContentTypeStr r) ∧
    httpPartDescription c10Resp =
      some (Except.error (PartialHeaderParseError.ContentRangeParse (strChars ("text/plain")))) :=
  ⟨fun _ => rfl, rfl⟩

/-- The `u64` modulus as a numeral. -/
theorem u64Mod_eq : u64Mod = 18446744073709551616 := by decide

/-- Wrapping addition below the modulus is plain addition. -/
theorem wadd_of_lt {a b : Nat} (h : a + b < u64Mod) : wadd a b = a + b :=
  Nat.mod_eq_of_lt h

/-- Wrapping subtraction of a smaller value is plain subtraction. -/
theorem wsub_of_le {a b : Nat} (hba : b ≤ a) (h : a - b < u64Mod) : wsub a b = a - b := by
  have h2 : a + u64Mod - b = (a - b) + u64Mod := by omega
  rw [wsub, h2, Nat.add_mod_right]
  exact Nat.mod_eq_of_lt h

/-- Dropping from a replicated list drops from the count. -/
theorem drop_replicate_eq (a : Nat) : ∀ m n, (List.replicate n a).drop m = List.replicate (n - m) a := by
  intro m
  induction m with
  | zero => intro n; simp
  | succ m ih =>
    intro n
    cases n with
    | zero => simp
    | succ n =>
      rw [List.replicate_succ, List.drop_succ_cons, ih n]
      congr 1
      omega

/-- Indexing inside a replicated list yields the replicated element. -/
theorem getD_replicate_lt (a d : Nat) : ∀ {m n : Nat}, m < n →
    (List.replicate n a).getD m d = a := by
  intro m
  induction m with
  | zero =>
    intro n h
    cases n with
    | zero => omega
    | succ n => simp [List.replicate_succ]
  | succ m ih =>
    intro n h
    cases n with
    | zero => omega
    | succ n =>
      rw [List.replicate_succ, List.getD_cons_succ]
      exact ih (by omega)

/-- The segment flattening distributes over list append. -/
theorem flattenSegs_append (xs ys : List (Nat × SegPart)) :
    flattenSegs (xs ++ ys) = flattenSegs xs ++ flattenSegs ys := by
  simp [flattenSegs]

/-- The segment flattening of a cons. -/
theorem flattenSegs_cons (x : Nat × SegPart) (xs : List (Nat × SegPart)) :
    flattenSegs (x :: xs) = segBytes x.2 ++ flattenSegs xs := by
  simp [flattenSegs]

/-- The segment flattening of the empty partition. -/
theorem flattenSegs_nil : flattenSegs [] = [] := rfl

/-- The single suffix part of the claim C8 scenario: the last 100 bytes of
a resource of total length `T`, as reported by
`Content-Range: bytes (T-100)-(T-1)/T`. -/
def c8Part (T : Nat) (data : List Nat) : ResponsePart :=
  ⟨[], ContentRange.Bytes ⟨T - 100, T - 1, T⟩, data⟩

/-- Segment partition built for the claim C8 scenario: a zero filler over
`[0, T-100)` followed by the delivered data at `T-100`, with total `T`. -/
theorem c8_segments (T : Nat) (data : List Nat) (hT : 200 ≤ T) (hU : T < u64Mod) :
    make_sparse_segments [c8Part T data] =
      ([(0, SegPart.Empty (T - 100)), (T - 100, SegPart.Full data)], T) := by
  have hw1 : wsub (T - 1) (T - 100) = 99 := by
    rw [wsub_of_le (by omega) (by rw [u64Mod_eq]; omega)]
    omega
  have hw2 : wadd 99 1 = 100 := wadd_of_lt (by rw [u64Mod_eq]; omega)
  have hw3 : wadd (T - 100) 100 = T := by
    rw [wadd_of_lt (by omega)]
    omega
  have hoff : offset_len (c8Part T data).content_range = some (T - 100, 100) := by
    simp [c8Part, offset_len, hw1, hw2]
  have hts : total_size (c8Part T data) = some T := by
    simp [c8Part, total_size]
  have hcol : collectParts [c8Part T data] = (T, [(T - 100, 100, c8Part T data)]) := by
    simp [collectParts, collectStep, hoff, hts, mapInsert]
  have hbuild : buildStartParts [(T - 100, 100, c8Part T data)] 0 =
      ([(0, SegPart.Empty (T - 100)), (T - 100, SegPart.Full data)], T) := by
    simp only [buildStartParts, hw3]
    rw [if_pos (by omega)]
    simp [c8Part]
  simp only [make_sparse_segments, hcol, hbuild]
  rw [if_neg (by omega)]
  simp

/-- Claim C8: seeking on the sparse body resolves the target from start,
from current, and from the end given by the established total length,
failing exactly when the resolved position would be negative; and in the
scenario where the delivered part is the last 100 bytes of a resource of
total length `T`, seeking to 200 bytes before the end and reading to the
end yields 100 zero bytes followed by those last 100 bytes. -/
theorem c8_seek_semantics :
    (∀ (st : SparseState) (n : Nat),
      sparseSeek st (SeekFrom.Start n) = some ⟨st.segs, st.total, n⟩) ∧
    (∀ (st : SparseState) (d : Int),
      ((st.pos : Int) + d < 0 → sparseSeek st (SeekFrom.Current d) = none) ∧
      (0 ≤ (st.pos : Int) + d →
        sparseSeek st (SeekFrom.Current d) = some ⟨st.segs, st.total, ((st.pos : Int) + d).toNat⟩)) ∧
    (∀ (st : SparseState) (d : Int),
      ((st.total : Int) + d < 0 → sparseSeek st (SeekFrom.End d) = none) ∧
      (0 ≤ (st.total : Int) + d →
        sparseSeek st (SeekFrom.End d) = some ⟨st.segs, st.total, ((st.total : Int) + d).toNat⟩)) ∧
    (∀ (T : Nat) (data : List Nat), 200 ≤ T → T < u64Mod → data.length = 100 →
      (sparseFromParts [c8Part T data]).total = T ∧
      ∃ st2 : SparseState,
        sparseSeek (sparseFromParts [c8Part T data]) (SeekFrom.End (-200)) = some st2 ∧
        st2.pos = T - 200 ∧
        sparseReadToEnd st2 = List.replicate 100 0 ++ data) := by
  refine ⟨?_, ?_, ?_, ?_⟩
  · intro st n; rfl
  · intro st d
    constructor
    · intro h; simp [sparseSeek, abs_position, h]
    · intro h; simp [sparseSeek, abs_position, Int.not_lt.mpr h]
  · intro st d
    constructor
    · intro h; simp [sparseSeek, abs_position, h]
    · intro h; simp [sparseSeek, abs_position, Int.not_lt.mpr h]
  · intro T data hT hU hlen
    have hseg := c8_segments T data hT hU
    have htot : (sparseFromParts [c8Part T data]).total = T := by
      simp [sparseFromParts, hseg]
    refine ⟨htot, ⟨(sparseFromParts [c8Part T data]).segs, T, T - 200⟩, ?_, rfl, ?_⟩
    · have hnn : ¬ ((T : Int) + (-200) < 0) := by omega
      have ht2 : ((T : Int) + (-200)).toNat = T - 200 := by omega
      simp only [sparseSeek, abs_position, htot, if_neg hnn, Option.map_some, ht2]
      rfl
    · have hsegs : (sparseFromParts [c8Part T data]).segs =
          [(0, SegPart.Empty (T - 100)), (T - 100, SegPart.Full data)] := by
        simp [sparseFromParts, hseg]
      have hd : (T - 100) - (T - 200) = 100 := by omega
      simp only [sparseReadToEnd, hsegs, flattenSegs_cons, flattenSegs_nil, segBytes,
        List.append_nil]
      rw [List.drop_append_of_le_length (by simp [List.length_replicate]; omega),
        drop_replicate_eq, hd]

/-- Witness for claim C8 at `T = 300` with constant data. -/
theorem c8_witness :
    (sparseFromParts [c8Part 300 (List.replicate 100 9)]).total = 300 ∧
    ∃ st2 : SparseState,
      sparseSeek (sparseFromParts [c8Part 300 (List.replicate 100 9)]) (SeekFrom.End (-200)) =
        some st2 ∧
      st2.pos = 100 ∧
      sparseReadToEnd st2 = List.replicate 100 0 ++ List.replicate 100 9 :=
  c8_seek_semantics.2.2.2 300 (List.replicate 100 9) (by decide)
    (by rw [u64Mod_eq]; decide) (by decide)

/-- The usable `(offset, length)` of a part, as computed by `offset_len`. -/
def PartRange (p : ResponsePart) (o l : Nat) : Prop :=
  offset_len p.content_range = some (o, l)

/-- Well-formedness of one delivered part: a usable range of positive
length fitting in `u64`, data of exactly that length, and a reported
complete length (if any) that covers the part's own extent. -/
def GoodPart (p : ResponsePart) : Prop :=
  ∃ o l, PartRange p o l ∧ 0 < l ∧ o + l < u64Mod ∧ p.data.length = l ∧
    ∀ t, total_size p = some t → o + l ≤ t

/-- Two parts deliver non-overlapping offset ranges. -/
def DisjointParts (p q : ResponsePart) : Prop :=
  ∀ o l o2 l2, PartRange p o l → PartRange q o2 l2 → o + l ≤ o2 ∨ o2 + l2 ≤ o

/-- A part's usable range is a function of the part. -/
theorem PartRange.func {p : ResponsePart} {o l o2 l2 : Nat}
    (h1 : PartRange p o l) (h2 : PartRange p o2 l2) : o = o2 ∧ l = l2 := by
  rw [PartRange, h1] at h2
  injection h2 with h3
  exact ⟨congrArg Prod.fst h3, congrArg Prod.snd h3⟩

/-- Part disjointness is symmetric. -/
theorem DisjointParts.symmRel : Symmetric DisjointParts := by
  intro p q h o l o2 l2 hq hp
  exact (h o2 l2 o l hp hq).symm

/-- Membership after an ordered-map insertion: the inserted tuple or a
previous entry. -/
theorem mem_mapInsert {tup x : Nat × Nat × ResponsePart} :
    ∀ {m : List (Nat × Nat × ResponsePart)}, x ∈ mapInsert tup m → x = tup ∨ x ∈ m := by
  intro m
  induction m with
  | nil =>
    intro h
    simp only [mapInsert] at h
    simpa using h
  | cons e rest ih =>
    intro h
    simp only [mapInsert] at h
    split at h
    · rcases List.mem_cons.mp h with h1 | h1
      · exact Or.inl h1
      · exact Or.inr h1
    · split at h
      · rcases List.mem_cons.mp h with h1 | h1
        · split at h1
          · exact Or.inl h1
          · exact Or.inr (List.mem_cons.mpr (Or.inl h1))
        · exact Or.inr (List.mem_cons.mpr (Or.inr h1))
      · rcases List.mem_cons.mp h with h1 | h1
        · exact Or.inr (List.mem_cons.mpr (Or.inl h1))
        · rcases ih h1 with h2 | h2
          · exact Or.inl h2
          · exact Or.inr (List.mem_cons.mpr (Or.inr h2))

/-- An entry with a different key survives an ordered-map insertion. -/
theorem mem_mapInsert_of_mem {tup x : Nat × Nat × ResponsePart} :
    ∀ {m : List (Nat × Nat × ResponsePart)}, x ∈ m → x.1 ≠ tup.1 → x ∈ mapInsert tup m := by
  intro m
  induction m with
  | nil => intro h; simp at h
  | cons e rest ih =>
    intro h hne
    simp only [mapInsert]
    rcases List.mem_cons.mp h with h1 | h1
    · subst h1
      split
      · exact List.mem_cons.mpr (Or.inr (List.mem_cons.mpr (Or.inl rfl)))
      · split
        · exact absurd (by omega) hne
        · exact List.mem_cons.mpr (Or.inl rfl)
    · split
      · exact List.mem_cons.mpr (Or.inr (List.mem_cons.mpr (Or.inr h1)))
      · split
        · exact List.mem_cons.mpr (Or.inr h1)
        · exact List.mem_cons.mpr (Or.inr (ih h1 hne))

/-- An insertion with a fresh key contains the inserted tuple. -/
theorem self_mem_mapInsert {tup : Nat × Nat × ResponsePart} :
    ∀ {m : List (Nat × Nat × ResponsePart)}, (∀ e ∈ m, e.1 ≠ tup.1) →
      tup ∈ mapInsert tup m := by
  intro m
  induction m with
  | nil => intro _; simp [mapInsert]
  | cons e rest ih =>
    intro hfresh
    simp only [mapInsert]
    split
    · exact List.mem_cons.mpr (Or.inl rfl)
    · split
      · exact absurd (by omega) (hfresh e (List.mem_cons_self e rest)).symm
      · exact List.mem_cons.mpr
          (Or.inr (ih (fun x hx => hfresh x (List.mem_cons_of_mem e hx))))

/-- Ordered-map insertion preserves strict sortedness by key. -/
theorem pairwise_mapInsert {tup : Nat × Nat × ResponsePart} :
    ∀ {m : List (Nat × Nat × ResponsePart)},
      List.Pairwise (fun a b => a.1 < b.1) m →
      List.Pairwise (fun a b => a.1 < b.1) (mapInsert tup m) := by
  intro m
  induction m with
  | nil => intro _; simp [mapInsert]
  | cons e rest ih =>
    intro h
    obtain ⟨he, hrest⟩ := List.pairwise_cons.mp h
    simp only [mapInsert]
    split
    · rename_i hlt
      refine List.pairwise_cons.mpr ⟨?_, h⟩
      intro x hx
      rcases List.mem_cons.mp hx with h1 | h1
      · subst h1; exact hlt
      · exact Nat.lt_trans hlt (he x h1)
    · split
      · rename_i hnlt heq
        refine List.pairwise_cons.mpr ⟨?_, hrest⟩
        intro x hx
        split
        · rw [heq]
          exact he x hx
        · exact he x hx
      · rename_i hnlt hne
        refine List.pairwise_cons.mpr ⟨?_, ih hrest⟩
        intro x hx
        rcases mem_mapInsert hx with h1 | h1
        · subst h1; omega
        · exact he x h1

/-- Two parts with distinct usable start offsets. -/
def OffsetsNe (p q : ResponsePart) : Prop :=
  ∀ o l o2 l2, PartRange p o l → PartRange q o2 l2 → o ≠ o2

/-- The fold of `collectStep` keeps the offset map strictly sorted. -/
theorem collect_sorted :
    ∀ (ps : List ResponsePart) (acc : Nat × List (Nat × Nat × ResponsePart)),
      List.Pairwise (fun a b => a.1 < b.1) acc.2 →
      List.Pairwise (fun a b => a.1 < b.1) (ps.foldl collectStep acc).2 := by
  intro ps
  induction ps with
  | nil => intro acc h; exact h
  | cons p rest ih =>
    intro acc h
    simp only [List.foldl_cons]
    rcases hol : offset_len p.content_range with _ | ⟨o, l⟩
    · have hstep : collectStep acc p = acc := by simp [collectStep, hol]
      rw [hstep]
      exact ih acc h
    · have hstep : (collectStep acc p).2 = mapInsert (o, l, p) acc.2 := by
        simp [collectStep, hol]
      refine ih (collectStep acc p) ?_
      rw [hstep]
      exact pairwise_mapInsert h

/-- Membership in the offset map built by the fold of `collectStep`: given
that no pending part reuses an accumulated key and pending parts have
pairwise distinct offsets, the entries are exactly the accumulated ones
plus one `(offset, len, part)` tuple per usable pending part. -/
theorem collect_mem_iff :
    ∀ (ps : List ResponsePart) (acc : Nat × List (Nat × Nat × ResponsePart)),
      (∀ x ∈ acc.2, ∀ p ∈ ps, ∀ o l, PartRange p o l → x.1 ≠ o) →
      List.Pairwise OffsetsNe ps →
      ∀ x, (x ∈ (ps.foldl collectStep acc).2 ↔
        x ∈ acc.2 ∨ ∃ p ∈ ps, ∃ o l, PartRange p o l ∧ x = (o, l, p)) := by
  intro ps
  induction ps with
  | nil =>
    intro acc _ _ x
    simp
  | cons p rest ih =>
    intro acc hacc hpw x
    obtain ⟨hp_first, hpw_rest⟩ := List.pairwise_cons.mp hpw
    simp only [List.foldl_cons]
    rcases hol : offset_len p.content_range with _ | ⟨o, l⟩
    · have hstep : collectStep acc p = acc := by simp [collectStep, hol]
      rw [hstep]
      rw [ih acc (fun y hy q hq => hacc y hy q (List.mem_cons_of_mem p hq)) hpw_rest x]
      constructor
      · rintro (hx | ⟨q, hq, o2, l2, hq2, rfl⟩)
        · exact Or.inl hx
        · exact Or.inr ⟨q, List.mem_cons_of_mem p hq, o2, l2, hq2, rfl⟩
      · rintro (hx | ⟨q, hq, o2, l2, hq2, rfl⟩)
        · exact Or.inl hx
        · rcases List.mem_cons.mp hq with rfl | hq3
          · rw [PartRange, hol] at hq2
            cases hq2
          · exact Or.inr ⟨q, hq3, o2, l2, hq2, rfl⟩
    · have hpr : PartRange p o l := hol
      have hstep : (collectStep acc p).2 = mapInsert (o, l, p) acc.2 := by
        simp [collectStep, hol]
      have hpre : ∀ y ∈ (collectStep acc p).2, ∀ q ∈ rest, ∀ o2 l2,
          PartRange q o2 l2 → y.1 ≠ o2 := by
        intro y hy q hq o2 l2 hq2
        rw [hstep] at hy
        rcases mem_mapInsert hy with rfl | hy2
        · exact hp_first q hq o l o2 l2 hpr hq2
        · exact hacc y hy2 q (List.mem_cons_of_mem p hq) o2 l2 hq2
      rw [ih (collectStep acc p) hpre hpw_rest x, hstep]
      constructor
      · rintro (hx | ⟨q, hq, o2, l2, hq2, rfl⟩)
        · rcases mem_mapInsert hx with rfl | hx2
          · exact Or.inr ⟨p, List.mem_cons_self p rest, o, l, hpr, rfl⟩
          · exact Or.inl hx2
        · exact Or.inr ⟨q, List.mem_cons_of_mem p hq, o2, l2, hq2, rfl⟩
      · rintro (hx | ⟨q, hq, o2, l2, hq2, rfl⟩)
        · refine Or.inl (mem_mapInsert_of_mem hx ?_)
          exact hacc x hx p (List.mem_cons_self p rest) o l hpr
        · rcases List.mem_cons.mp hq with rfl | hq3
          · obtain ⟨ho, hl⟩ := PartRange.func hpr hq2
            subst ho; subst hl
            refine Or.inl (self_mem_mapInsert ?_)
            intro e he
            exact hacc e he q (List.mem_cons_self q rest) o l hpr
          · exact Or.inr ⟨q, hq3, o2, l2, hq2, rfl⟩

/-- The running total of the fold of `collectStep` never decreases. -/
theorem collect_total_mono :
    ∀ (ps : List ResponsePart) (acc : Nat × List (Nat × Nat × ResponsePart)),
      acc.1 ≤ (ps.foldl collectStep acc).1 := by
  intro ps
  induction ps with
  | nil => intro acc; exact Nat.le_refl _
  | cons p rest ih =>
    intro acc
    simp only [List.foldl_cons]
    refine Nat.le_trans ?_ (ih (collectStep acc p))
    rcases hol : offset_len p.content_range with _ | ⟨o, l⟩
    · simp [collectStep, hol]
    · simp only [collectStep, hol]
      rcases total_size p with _ | t
      · exact Nat.le_max_left _ _
      · exact Nat.le_max_left _ _

/-- The total computed by the fold of `collectStep` covers the extent of
every usable part whose reported complete length (if any) covers it. -/
theorem collect_total_ge :
    ∀ (ps : List ResponsePart) (acc : Nat × List (Nat × Nat × ResponsePart))
      (p : ResponsePart), p ∈ ps → ∀ o l, PartRange p o l → o + l < u64Mod →
      (∀ t, total_size p = some t → o + l ≤ t) →
      o + l ≤ (ps.foldl collectStep acc).1 := by
  intro ps
  induction ps with
  | nil => intro acc p hp; simp at hp
  | cons q rest ih =>
    intro acc p hp o l hol hlt hcons
    simp only [List.foldl_cons]
    rcases List.mem_cons.mp hp with rfl | hp2
    · refine Nat.le_trans ?_ (collect_total_mono rest (collectStep acc p))
      have hol2 : offset_len p.content_range = some (o, l) := hol
      rcases hts : total_size p with _ | t
      · have hstep1 : (collectStep acc p).1 = max acc.1 (wadd o l) := by
          simp [collectStep, hol2, hts]
        rw [hstep1, wadd_of_lt hlt]
        exact Nat.le_max_right _ _
      · have hstep1 : (collectStep acc p).1 = max acc.1 t := by
          simp [collectStep, hol2, hts]
        rw [hstep1]
        exact Nat.le_trans (hcons t hts) (Nat.le_max_right _ _)
    · exact ih (collectStep acc q) p hp2 o l hol hlt hcons

/-- Behaviour of the segment list built by `buildStartParts` over a
chain-sorted entry list starting at cursor `idx`: its flattened length
reaches the final cursor, the final cursor is the end of the last entry
(or `idx` when there is none) and bounds every entry's end, indexing
inside an entry's range reads that entry's data, and indexing in any gap
reads zero. -/
theorem build_spec :
    ∀ (m : List (Nat × Nat × ResponsePart)) (idx : Nat),
      (∀ x ∈ m, idx ≤ x.1) →
      List.Pairwise (fun x y => x.1 + x.2.1 ≤ y.1) m →
      (∀ x ∈ m, x.2.2.data.length = x.2.1 ∧ x.1 + x.2.1 < u64Mod) →
      (flattenSegs (buildStartParts m idx).1).length + idx = (buildStartParts m idx).2 ∧
      idx ≤ (buildStartParts m idx).2 ∧
      ((buildStartParts m idx).2 = idx ∨
        ∃ x ∈ m, (buildStartParts m idx).2 = x.1 + x.2.1) ∧
      (∀ x ∈ m, x.1 + x.2.1 ≤ (buildStartParts m idx).2) ∧
      (∀ x ∈ m, ∀ j, j < x.2.1 →
        (flattenSegs (buildStartParts m idx).1).getD (x.1 + j - idx) 0 =
          x.2.2.data.getD j 0) ∧
      (∀ i, idx ≤ i → i < (buildStartParts m idx).2 →
        (∀ x ∈ m, i < x.1 ∨ x.1 + x.2.1 ≤ i) →
        (flattenSegs (buildStartParts m idx).1).getD (i - idx) 0 = 0) := by
  intro m
  induction m with
  | nil =>
    intro idx _ _ _
    refine ⟨by simp [buildStartParts, flattenSegs], Nat.le_refl _, Or.inl rfl, ?_, ?_, ?_⟩
    · intro x hx; simp at hx
    · intro x hx; simp at hx
    · intro i hge hlt _
      simp only [buildStartParts] at hlt
      omega
  | cons hd rest ih =>
    obtain ⟨o, l, p⟩ := hd
    intro idx hidx hchain hdata
    obtain ⟨hhead, hchain2⟩ := List.pairwise_cons.mp hchain
    have hid_o : idx ≤ o := hidx (o, l, p) (List.mem_cons_self _ _)
    obtain ⟨hdlen, hbound⟩ := hdata (o, l, p) (List.mem_cons_self _ _)
    have hdlen2 : p.data.length = l := hdlen
    have hw : wadd o l = o + l := wadd_of_lt hbound
    have hrest_idx : ∀ x ∈ rest, o + l ≤ x.1 := fun x hx => hhead x hx
    have hrest_data : ∀ x ∈ rest, x.2.2.data.length = x.2.1 ∧ x.1 + x.2.1 < u64Mod :=
      fun x hx => hdata x (List.mem_cons_of_mem _ hx)
    obtain ⟨ihlen, ihle, ihfin, ihend, ihmem, ihzero⟩ :=
      ih (o + l) hrest_idx hchain2 hrest_data
    have hbuild : buildStartParts ((o, l, p) :: rest) idx =
        ((if idx < o then [(idx, SegPart.Empty (o - idx))] else []) ++
          (o, SegPart.Full p.data) :: (buildStartParts rest (o + l)).1,
         (buildStartParts rest (o + l)).2) := by
      simp only [buildStartParts, hw]
    have hgap : flattenSegs (if idx < o then [(idx, SegPart.Empty (o - idx))] else []) =
        List.replicate (o - idx) 0 := by
      split
      · simp [flattenSegs, segBytes]
      · have : o - idx = 0 := by omega
        simp [flattenSegs, this]
    have hflat : flattenSegs (buildStartParts ((o, l, p) :: rest) idx).1 =
        List.replicate (o - idx) 0 ++
          (p.data ++ flattenSegs (buildStartParts rest (o + l)).1) := by
      rw [hbuild, flattenSegs_append, hgap, flattenSegs_cons]
      simp [segBytes]
    have hfin : (buildStartParts ((o, l, p) :: rest) idx).2 =
        (buildStartParts rest (o + l)).2 := by
      rw [hbuild]
    set FL := flattenSegs (buildStartParts rest (o + l)).1 with hFL
    have hTL : FL.length + (o + l) = (buildStartParts rest (o + l)).2 := ihlen
    refine ⟨?_, ?_, ?_, ?_, ?_, ?_⟩
    · rw [hflat, hfin]
      simp only [List.length_append, List.length_replicate, hdlen2]
      omega
    · rw [hfin]; omega
    · rw [hfin]
      rcases ihfin with h1 | ⟨x, hx, h2⟩
      · exact Or.inr ⟨(o, l, p), List.mem_cons_self _ _, h1⟩
      · exact Or.inr ⟨x, List.mem_cons_of_mem _ hx, h2⟩
    · intro x hx
      rw [hfin]
      rcases List.mem_cons.mp hx with rfl | hx2
      · exact ihle
      · exact ihend x hx2
    · intro x hx j hj
      rcases List.mem_cons.mp hx with rfl | hx2
      · rw [hflat]
        have e1 : o + j - idx = (o - idx) + j := by omega
        rw [e1, List.getD_append_right _ _ _ _ (by simp [List.length_replicate])]
        simp only [List.length_replicate, Nat.add_sub_cancel_left]
        rw [List.getD_append _ _ _ _ (by rw [hdlen2]; exact hj)]
      · have hx1 : o + l ≤ x.1 := hrest_idx x hx2
        rw [hflat]
        have e1 : (o - idx) ≤ x.1 + j - idx := by omega
        rw [List.getD_append_right _ _ _ _ (by simpa [List.length_replicate] using e1)]
        have e2 : x.1 + j - idx - (List.replicate (o - idx) 0).length = x.1 + j - o := by
          simp only [List.length_replicate]
          omega
        rw [e2]
        rw [List.getD_append_right _ _ _ _ (by rw [hdlen2]; omega)]
        have e3 : x.1 + j - o - p.data.length = x.1 + j - (o + l) := by
          rw [hdlen2]; omega
        rw [e3]
        exact ihmem x hx2 j hj
    · intro i hge hlt hunc
      rw [hfin] at hlt
      rw [hflat]
      rcases hunc (o, l, p) (List.mem_cons_self _ _) with hcase | hcase
      · have hcase2 : i < o := hcase
        rw [List.getD_append _ _ _ _
            (by simp only [List.length_replicate]; omega)]
        exact getD_replicate_lt 0 0 (by omega)
      · have hcase2 : o + l ≤ i := hcase
        have e1 : (o - idx) ≤ i - idx := by omega
        rw [List.getD_append_right _ _ _ _ (by simpa [List.length_replicate] using e1)]
        have e2 : i - idx - (List.replicate (o - idx) 0).length = i - o := by
          simp only [List.length_replicate]
          omega
        rw [e2]
        rw [List.getD_append_right _ _ _ _ (by rw [hdlen2]; omega)]
        have e3 : i - o - p.data.length = i - (o + l) := by
          rw [hdlen2]; omega
        rw [e3]
        exact ihzero i (by omega) hlt
          (fun x hx => hunc x (List.mem_cons_of_mem _ hx))

/-- The read-back property claimed for the reconstructed sparse body:
its flattened content spans exactly the computed total length, reads each
part's bytes over the part's delivered offset range, and reads zero at
every offset no part delivered. -/
def SparseReadSpec (ps : List ResponsePart) : Prop :=
  (flattenSegs (make_sparse_segments ps).1).length = (make_sparse_segments ps).2 ∧
  (∀ p ∈ ps, ∀ o l, PartRange p o l → ∀ j, j < l →
    (flattenSegs (make_sparse_segments ps).1).getD (o + j) 0 = p.data.getD j 0) ∧
  (∀ i, i < (make_sparse_segments ps).2 →
    (∀ p ∈ ps, ∀ o l, PartRange p o l → i < o ∨ o + l ≤ i) →
    (flattenSegs (make_sparse_segments ps).1).getD i 0 = 0)

/-- Claim C3: for every collection of well-formed parts with usable,
pairwise non-overlapping ranges, reading the whole address space of the
reconstructed sparse body yields each part's bytes over its delivered
range and zero everywhere else. -/
theorem c3_sparse_reconstruction (ps : List ResponsePart)
    (hgood : ∀ p ∈ ps, GoodPart p)
    (hdisj : List.Pairwise DisjointParts ps) :
    SparseReadSpec ps := by
  have hgood2 : ∀ p ∈ ps, ∀ o l, PartRange p o l →
      0 < l ∧ o + l < u64Mod ∧ p.data.length = l ∧
        ∀ t, total_size p = some t → o + l ≤ t := by
    intro p hp o l hol
    obtain ⟨o2, l2, hol2, hpos, hb, hlen, hcons⟩ := hgood p hp
    obtain ⟨rfl, rfl⟩ := PartRange.func hol hol2
    exact ⟨hpos, hb, hlen, hcons⟩
  have hoffne : List.Pairwise OffsetsNe ps := by
    refine hdisj.imp_of_mem ?_
    intro p q hp hq hd o l o2 l2 h1 h2 heq
    subst heq
    obtain ⟨hpos, _, _, _⟩ := hgood2 p hp o l h1
    obtain ⟨hpos2, _, _, _⟩ := hgood2 q hq o l2 h2
    rcases hd o l o l2 h1 h2 with h | h <;> omega
  have hmem : ∀ x, x ∈ (collectParts ps).2 ↔
      ∃ p ∈ ps, ∃ o l, PartRange p o l ∧ x = (o, l, p) := by
    intro x
    have h := collect_mem_iff ps (0, []) (by intro y hy; simp at hy) hoffne x
    simpa using h
  have hsorted : List.Pairwise (fun a b => a.1 < b.1) (collectParts ps).2 :=
    collect_sorted ps (0, []) (by simp)
  have hdisj_all : ∀ p ∈ ps, ∀ q ∈ ps, p ≠ q → DisjointParts p q :=
    fun p hp q hq hne => List.Pairwise.forall DisjointParts.symmRel hdisj hp hq hne
  have hchain : List.Pairwise (fun x y => x.1 + x.2.1 ≤ y.1) (collectParts ps).2 := by
    refine hsorted.imp_of_mem ?_
    intro x y hx hy hlt
    obtain ⟨p, hp, o, l, holp, rfl⟩ := (hmem x).mp hx
    obtain ⟨q, hq, o2, l2, holq, rfl⟩ := (hmem y).mp hy
    have hlt2 : o < o2 := hlt
    show o + l ≤ o2
    have hne : p ≠ q := by
      intro heq
      subst heq
      obtain ⟨ho, _⟩ := PartRange.func holp holq
      omega
    obtain ⟨hpos2, _, _, _⟩ := hgood2 q hq o2 l2 holq
    rcases hdisj_all p hp q hq hne o l o2 l2 holp holq with h | h
    · exact h
    · omega
  have hdata : ∀ x ∈ (collectParts ps).2,
      x.2.2.data.length = x.2.1 ∧ x.1 + x.2.1 < u64Mod := by
    intro x hx
    obtain ⟨p, hp, o, l, hol, rfl⟩ := (hmem x).mp hx
    obtain ⟨_, hb, hlen, _⟩ := hgood2 p hp o l hol
    exact ⟨hlen, hb⟩
  obtain ⟨blen, ble, bfin, bend, bmem, bzero⟩ :=
    build_spec (collectParts ps).2 0 (fun x _ => Nat.zero_le _) hchain hdata
  have hend_le_total : ∀ x ∈ (collectParts ps).2, x.1 + x.2.1 ≤ (collectParts ps).1 := by
    intro x hx
    obtain ⟨p, hp, o, l, hol, rfl⟩ := (hmem x).mp hx
    obtain ⟨_, hb, _, hcons⟩ := hgood2 p hp o l hol
    exact collect_total_ge ps (0, []) p hp o l hol hb hcons
  have hfin_le : (buildStartParts (collectParts ps).2 0).2 ≤ (collectParts ps).1 := by
    rcases bfin with h | ⟨x, hx, h⟩
    · rw [h]; exact Nat.zero_le _
    · rw [h]; exact hend_le_total x hx
  have hmss1 : (make_sparse_segments ps).1 =
      (buildStartParts (collectParts ps).2 0).1 ++
        (if (buildStartParts (collectParts ps).2 0).2 < (collectParts ps).1 then
          [((buildStartParts (collectParts ps).2 0).2,
            SegPart.Empty ((collectParts ps).1 - (buildStartParts (collectParts ps).2 0).2))]
        else []) := rfl
  have hmss2 : (make_sparse_segments ps).2 = (collectParts ps).1 := rfl
  have htail : flattenSegs
      (if (buildStartParts (collectParts ps).2 0).2 < (collectParts ps).1 then
        [((buildStartParts (collectParts ps).2 0).2,
          SegPart.Empty ((collectParts ps).1 - (buildStartParts (collectParts ps).2 0).2))]
      else []) =
      List.replicate ((collectParts ps).1 - (buildStartParts (collectParts ps).2 0).2) 0 := by
    split
    · simp [flattenSegs, segBytes]
    · rename_i hnot
      have h0 : (collectParts ps).1 - (buildStartParts (collectParts ps).2 0).2 = 0 := by
        omega
      simp [flattenSegs, h0]
  have hflat : flattenSegs (make_sparse_segments ps).1 =
      flattenSegs (buildStartParts (collectParts ps).2 0).1 ++
        List.replicate ((collectParts ps).1 - (buildStartParts (collectParts ps).2 0).2) 0 := by
    rw [hmss1, flattenSegs_append, htail]
  have hblen : (flattenSegs (buildStartParts (collectParts ps).2 0).1).length =
      (buildStartParts (collectParts ps).2 0).2 := by
    omega
  unfold SparseReadSpec
  refine ⟨?_, ?_, ?_⟩
  · rw [hflat, hmss2]
    simp only [List.length_append, List.length_replicate, hblen]
    omega
  · intro p hp o l hol j hj
    have hx : (o, l, p) ∈ (collectParts ps).2 :=
      (hmem (o, l, p)).mpr ⟨p, hp, o, l, hol, rfl⟩
    have hoend : o + l ≤ (buildStartParts (collectParts ps).2 0).2 := bend (o, l, p) hx
    have hidx : o + j < (flattenSegs (buildStartParts (collectParts ps).2 0).1).length := by
      rw [hblen]; omega
    rw [hflat, List.getD_append _ _ _ _ hidx]
    have h := bmem (o, l, p) hx j hj
    have h2 : (flattenSegs (buildStartParts (collectParts ps).2 0).1).getD (o + j - 0) 0 =
        p.data.getD j 0 := h
    simpa using h2
  · intro i hi hunc
    rw [hmss2] at hi
    have hunc2 : ∀ x ∈ (collectParts ps).2, i < x.1 ∨ x.1 + x.2.1 ≤ i := by
      intro x hx
      obtain ⟨p, hp, o, l, hol, rfl⟩ := (hmem x).mp hx
      exact hunc p hp o l hol
    rw [hflat]
    by_cases hcase : i < (buildStartParts (collectParts ps).2 0).2
    · rw [List.getD_append _ _ _ _ (by rw [hblen]; exact hcase)]
      have h := bzero i (Nat.zero_le _) hcase hunc2
      simpa using h
    · rw [List.getD_append_right _ _ _ _ (by rw [hblen]; omega)]
      rw [hblen]
      exact getD_replicate_lt 0 0 (by omega)

/-- First concrete part for the claim C3 witness: `bytes 2-4/12`. -/
def c3Part1 : ResponsePart := ⟨[], ContentRange.Bytes ⟨2, 4, 12⟩, [10, 11, 12]⟩

/-- Second concrete part for the claim C3 witness: `bytes 7-8/*`. -/
def c3Part2 : ResponsePart := ⟨[], ContentRange.UnboundBytes ⟨7, 8⟩, [20, 21]⟩

/-- Witness for claim C3 at two concrete non-overlapping parts. -/
theorem c3_witness : SparseReadSpec [c3Part1, c3Part2] := by
  have hr1 : PartRange c3Part1 2 3 :=
    show offset_len c3Part1.content_range = some (2, 3) by decide
  have hr2 : PartRange c3Part2 7 2 :=
    show offset_len c3Part2.content_range = some (7, 2) by decide
  refine c3_sparse_reconstruction [c3Part1, c3Part2] ?_ ?_
  · intro p hp
    rcases List.mem_cons.mp hp with rfl | hp2
    · refine ⟨2, 3, hr1, by decide, by decide, by decide, ?_⟩
      intro t ht
      have h12 : total_size c3Part1 = some 12 := rfl
      rw [h12] at ht
      injection ht with h
      omega
    · rcases List.mem_cons.mp hp2 with rfl | hp3
      · refine ⟨7, 2, hr2, by decide, by decide, by decide, ?_⟩
        intro t ht
        have hns : total_size c3Part2 = none := rfl
        rw [hns] at ht
        cases ht
      · simp at hp3
  · refine List.pairwise_cons.mpr ⟨?_, List.pairwise_cons.mpr ⟨?_, List.Pairwise.nil⟩⟩
    · intro q hq
      rcases List.mem_cons.mp hq with rfl | hq2
      · intro o l o2 l2 h1 h2
        obtain ⟨rfl, rfl⟩ := PartRange.func h1 hr1
        obtain ⟨rfl, rfl⟩ := PartRange.func h2 hr2
        exact Or.inl (by omega)
      · simp at hq2
    · intro q hq
      simp at hq

/-- Concrete consistent part for the claim C5 witness: `bytes 2-4/12`. -/
def c5Good : ResponsePart := ⟨[], ContentRange.Bytes ⟨2, 4, 12⟩, [10, 11, 12]⟩

/-- Witness for claim C5 at a part whose reported total covers its
extent. -/
theorem c5_witness : (make_sparse_segments [c5Good]).2 = specTotalLength [c5Good] := by
  refine c5_amended [c5Good] ?_
  intro p hp o l h
  rw [List.mem_singleton] at hp
  subst hp
  have he : offset_len c5Good.content_range = some (2, 3) := by decide
  obtain ⟨rfl, rfl⟩ := PartRange.func (show PartRange c5Good o l from h)
    (show PartRange c5Good 2 3 from he)
  refine ⟨by decide, ?_⟩
  intro t ht
  have h12 : total_size c5Good = some 12 := rfl
  rw [h12] at ht
  injection ht with h2
  omega

/-- Witness for claim C6 at the two concrete duplicate-offset parts. -/
theorem c6_witness :
    (collectParts [c6PartA, c6PartB]).2 = [(0, 5, c6PartA)] ∧
    (collectParts [c6PartB, c6PartA]).2 = [(0, 5, c6PartA)] ∧
    (make_sparse_segments [c6PartA, c6PartB]).2 =
      max (partContribution c6PartA) (partContribution c6PartB) ∧
    (make_sparse_segments [c6PartB, c6PartA]).2 =
      max (partContribution c6PartA) (partContribution c6PartB) :=
  c6_amended c6PartA c6PartB 0 5 3 (by decide) (by decide) (by decide)

/-- Well-formed framing of the first boundary occurrence in a body: if the
boundary occurs at all, the two bytes after its first occurrence are CRLF
or two hyphens (in particular they exist). -/
def GoodFirstBoundary (bnd body : List Nat) : Prop :=
  ∀ i, findOffset bnd body = some i →
    (body.drop (i + bnd.length)).take 2 = crlfBytes ∨
    (body.drop (i + bnd.length)).take 2 = dashBytes

/-- Well-formed framing for one `next` step of the window scan from cursor
`ns`: if the boundary occurs in the remaining body, its first occurrence
satisfies the three conditions under which the step provably returns a
value, each excluding a concrete hazard of the source:
`2 ≤ off` leaves room for the two-byte CRLF separator before the
boundary — at `off < 2` (an empty part) the source executes the reversed
`Bytes::slice(next_start..next_start + off - 2)` and panics;
the two bytes after the occurrence must exist and be CRLF or two
hyphens — otherwise the source indexes out of bounds or hits its explicit
`panic!`;
and the bytes before the occurrence must form a header block that fails
to parse, is incomplete, or contains a `Content-Range` or `Content-Type`
header — exactly the cases in which `next` returns at this occurrence;
a completely parsed block with neither header makes the source continue
the window scan with a shifted `next_start`, a path with its own panics
that this predicate does not certify. -/
def ScanReturnOk (bnd body : List Nat) (ns : Nat) : Prop :=
  ∀ off, findOffset bnd (body.drop ns) = some off →
    2 ≤ off ∧
    ((body.drop (ns + off + bnd.length)).take 2 = crlfBytes ∨
     (body.drop (ns + off + bnd.length)).take 2 = dashBytes) ∧
    (parse_headers ((body.drop ns).take (off - 2)) = none ∨
     parse_headers ((body.drop ns).take (off - 2)) = some none ∨
     ∃ idx heads, parse_headers ((body.drop ns).take (off - 2)) = some (some (idx, heads)) ∧
       ∃ h ∈ heads, lowerBytes h.1 = charBytes (strChars ("content-range")) ∨
         lowerBytes h.1 = charBytes (strChars ("content-type")))

/-- A two-element take certifies at least two elements. -/
theorem length_ge_two_of_take {l : List Nat} {a b : Nat} (h : l.take 2 = [a, b]) :
    2 ≤ l.length := by
  have h2 := congrArg List.length h
  simp at h2
  omega

/-- Structure of a successful boolean prefix test. -/
theorem isPrefixB_cons_inv {α : Type} [DecidableEq α] {a : α} {as l : List α}
    (h : isPrefixB (a :: as) l = true) : ∃ l2, l = a :: l2 ∧ isPrefixB as l2 = true := by
  cases l with
  | nil => simp [isPrefixB] at h
  | cons b l2 =>
    simp only [isPrefixB] at h
    split at h
    · rename_i heq
      subst heq
      exact ⟨l2, rfl, h⟩
    · cases h

/-- A successful `findOffset` is the first matching window. -/
theorem findOffset_some {bnd : List Nat} : ∀ {l : List Nat} {off : Nat},
    findOffset bnd l = some off →
    (l.drop off).take bnd.length = bnd ∧
      ∀ j, j < off → (l.drop j).take bnd.length ≠ bnd := by
  intro l
  induction l with
  | nil => intro off h; simp [findOffset] at h
  | cons b rest ih =>
    intro off h
    simp only [findOffset] at h
    split at h
    · rename_i hmatch
      injection h with h2
      subst h2
      exact ⟨by simpa using hmatch, fun j hj => by omega⟩
    · rename_i hnm
      rcases hopt : findOffset bnd rest with _ | off2
      · rw [hopt] at h; cases h
      · rw [hopt] at h
        simp only [Option.map_some'] at h
        injection h with h2
        subst h2
        obtain ⟨h1, h3⟩ := ih hopt
        refine ⟨by simpa using h1, ?_⟩
        intro j hj
        cases j with
        | zero => simpa using hnm
        | succ j2 =>
          have := h3 j2 (by omega)
          simpa using this

/-- A failed `findOffset` means no window matches (nonempty pattern). -/
theorem findOffset_none {bnd : List Nat} (hb : bnd ≠ []) : ∀ {l : List Nat},
    findOffset bnd l = none → ∀ j, (l.drop j).take bnd.length ≠ bnd := by
  intro l
  induction l with
  | nil =>
    intro _ j hcontra
    simp only [List.drop_nil, List.take_nil] at hcontra
    exact hb hcontra.symm
  | cons b rest ih =>
    intro h j
    simp only [findOffset] at h
    split at h
    · cases h
    · rename_i hnm
      have hr : findOffset bnd rest = none := by
        rcases hopt : findOffset bnd rest with _ | o
        · rfl
        · rw [hopt] at h; simp at h
      cases j with
      | zero => simpa using hnm
      | succ j2 =>
        have := ih hr j2
        simpa using this

/-- The header loop of `Parts::next` returns an element (with the
misplaced completeness check, always the parse error for the cases below)
whenever the header block contains a `Content-Range` or `Content-Type`
header. -/
theorem innerHeaderLoop_returns (data : List Nat) :
    ∀ (heads : List (List Nat × List Nat)),
      (∃ h ∈ heads, lowerBytes h.1 = charBytes (strChars ("content-range")) ∨
        lowerBytes h.1 = charBytes (strChars ("content-type"))) →
      ∃ item, innerHeaderLoop data heads none none = some item := by
  intro heads
  induction heads with
  | nil =>
    rintro ⟨h, hm, _⟩
    simp at hm
  | cons hd rest ih =>
    rintro ⟨h, hm, hrel⟩
    obtain ⟨name, value⟩ := hd
    by_cases h1 : lowerBytes name = charBytes (strChars ("content-range"))
    · refine ⟨Except.error (), ?_⟩
      simp only [innerHeaderLoop, if_pos h1]
      simp [checkHeaders]
    · by_cases h2 : lowerBytes name = charBytes (strChars ("content-type"))
      · refine ⟨Except.error (), ?_⟩
        simp only [innerHeaderLoop, if_neg h1, if_pos h2]
        simp [checkHeaders]
      · rcases List.mem_cons.mp hm with rfl | hm2
        · rcases hrel with h3 | h3
          · exact absurd h3 h1
          · exact absurd h3 h2
        · have hrest := ih ⟨h, hm2, hrel⟩
          simpa [innerHeaderLoop, if_neg h1, if_neg h2] using hrest

/-- The window scan with no matching window returns the iterator's `None`
with an unchanged cursor. -/
theorem scanLoop_no_match (bnd body origSlice : List Nat) :
    ∀ (rem off ns : Nat) (d : Bool),
      (∀ j, off ≤ j → (origSlice.drop j).take bnd.length ≠ bnd) →
      scanLoop bnd body origSlice rem off ns d = some (ns, d, none) := by
  intro rem
  induction rem with
  | zero => intro off ns d _; rfl
  | succ rem ih =>
    intro off ns d hno
    simp only [scanLoop]
    rw [if_neg (hno off (Nat.le_refl _))]
    exact ih (off + 1) ns d (fun j hj => hno j (by omega))

/-- The window scan returns a value when the first matching window is
well-framed and its header block makes the step return. -/
theorem scanLoop_returns (bnd body : List Nat) (hb : bnd ≠ []) :
    ∀ (rem off : Nat) (ns0 off0 : Nat) (d : Bool),
      off ≤ off0 → off0 < off + rem →
      (∀ j, j < off0 → ((body.drop ns0).drop j).take bnd.length ≠ bnd) →
      ((body.drop ns0).drop off0).take bnd.length = bnd →
      2 ≤ off0 →
      ((body.drop (ns0 + off0 + bnd.length)).take 2 = crlfBytes ∨
       (body.drop (ns0 + off0 + bnd.length)).take 2 = dashBytes) →
      (parse_headers ((body.drop ns0).take (off0 - 2)) = none ∨
       parse_headers ((body.drop ns0).take (off0 - 2)) = some none ∨
       ∃ idx heads,
         parse_headers ((body.drop ns0).take (off0 - 2)) = some (some (idx, heads)) ∧
         ∃ h ∈ heads, lowerBytes h.1 = charBytes (strChars ("content-range")) ∨
           lowerBytes h.1 = charBytes (strChars ("content-type"))) →
      ∃ r, scanLoop bnd body (body.drop ns0) rem off ns0 d = some r := by
  intro rem
  induction rem with
  | zero => intro off ns0 off0 d h1 h2 _ _ _ _ _; omega
  | succ rem ih =>
    intro off ns0 off0 d hle hlt hfirst hmatch h2off htail hparse
    by_cases heq : off = off0
    · subst heq
      have hbl : 0 < bnd.length := List.length_pos.mpr hb
      have hinbody : ns0 + off + bnd.length + 2 ≤ body.length := by
        have hva : ∃ a b, (body.drop (ns0 + off + bnd.length)).take 2 = [a, b] := by
          rcases htail with h | h
          · exact ⟨13, 10, h⟩
          · exact ⟨45, 45, h⟩
        obtain ⟨a, b, hab⟩ := hva
        have := length_ge_two_of_take hab
        simp only [List.length_drop] at this
        omega
      simp only [scanLoop]
      rw [if_pos hmatch]
      rw [if_neg (show ¬ (off + ns0 < 2) by omega)]
      rw [if_neg (show ¬ (off + ns0 - 2 < ns0) by omega)]
      rw [if_neg (show ¬ (body.length < off + ns0 - 2) by omega)]
      rw [if_neg (show ¬ (body.length < ns0 + off + bnd.length + 2) by omega)]
      have hidx : off + ns0 - 2 - ns0 = off - 2 := by omega
      have hidx2 : ns0 + off + bnd.length + 2 - 2 = ns0 + off + bnd.length := by omega
      rw [hidx, hidx2, if_pos htail]
      rcases hparse with hp | hp | ⟨idx, heads, hp, hrel⟩
      · rw [hp]
        exact ⟨_, rfl⟩
      · rw [hp]
        exact ⟨_, rfl⟩
      · rw [hp]
        obtain ⟨item, hinner⟩ :=
          innerHeaderLoop_returns (((body.drop ns0).take (off - 2)).drop idx) heads hrel
        simp only [hinner]
        exact ⟨_, rfl⟩
    · have hoff_lt : off < off0 := by omega
      simp only [scanLoop]
      rw [if_neg (hfirst off hoff_lt)]
      exact ih (off + 1) ns0 off0 d (by omega) (by omega) hfirst hmatch h2off htail hparse

/-- The multipart branch returns a value whenever the trimmed content type
is at least 21 characters long (the out-of-bounds slices are the only
panics there). -/
theorem multipartBranch_some (s : List Char)
    (hpre : isPrefixB BYTERANGES s = true)
    (h21 : BYTERANGES.length + 1 ≤ s.length) :
    ∃ v, multipartBranch s = some v := by
  have hBL : BYTERANGES.length = 20 := by decide
  have hBY : BYTERANGES = Char.ofNat 109 :: strChars ("ultipart/byteranges") := by decide
  rw [hBY] at hpre
  obtain ⟨s2, hs2, _⟩ := isPrefixB_cons_inv hpre
  have htake : s.take (BYTERANGES.length + 1) =
      Char.ofNat 109 :: s2.take BYTERANGES.length := by
    rw [hs2, List.take_succ_cons]
  have htrim : trimStartChars (s.take (BYTERANGES.length + 1)) =
      Char.ofNat 109 :: s2.take BYTERANGES.length := by
    rw [htake]
    simp only [trimStartChars]
    rw [if_neg (by decide)]
  have hs2len : s2.length = s.length - 1 := by
    rw [hs2]
    simp
  have htlen : (trimStartChars (s.take (BYTERANGES.length + 1))).length = 21 := by
    rw [htrim]
    simp only [List.length_cons, List.length_take]
    omega
  have hval : multipartBranch s =
      some (Except.ok (PartDesc.Multi (charBytes (strChars ("--") ++
        trimMatchesChar (Char.ofNat 39) (trimMatchesChar (Char.ofNat 34)
          ((trimStartChars (s.take (BYTERANGES.length + 1))).drop 9)))))) := by
    simp only [multipartBranch]
    rw [if_neg (by omega),
      if_neg (show ¬ (trimStartChars (s.take (BYTERANGES.length + 1))).length < 9 by
        rw [htlen]; omega)]
  exact ⟨_, hval⟩

/-- The single-range branch returns a value whenever the `Content-Range`
value does not parse as unsatisfied (the `unreachable!()` is its only
panic). -/
theorem singleBranch_some (s : List Char) (cr : Option (List Char))
    (h : ∀ crs, cr = some crs → ∀ n, contentRangeParseChars crs ≠ ContentRange.Unsatisfied n) :
    ∃ v, singleBranch s cr = some v := by
  rcases cr with _ | crs
  · exact ⟨_, rfl⟩
  · have hred : singleBranch s (some crs) =
        (match contentRangeParseChars crs with
         | ContentRange.Unsatisfied _ => none
         | ContentRange.Unknown =>
           some (Except.error (PartialHeaderParseError.ContentRangeParse crs))
         | cr2 => some (Except.ok (PartDesc.Single cr2 s))) := rfl
    rw [hred]
    cases hcrp : contentRangeParseChars crs with
    | Bytes r => exact ⟨_, rfl⟩
    | UnboundBytes r => exact ⟨_, rfl⟩
    | Unsatisfied n => exact absurd hcrp (h crs rfl n)
    | Unknown => exact ⟨_, rfl⟩

/-- `Parts::new` returns a state whenever the first boundary occurrence
(if any) is well-framed. -/
theorem partsNew_returns (bnd body : List Nat) (hb : bnd ≠ [])
    (hgood : GoodFirstBoundary bnd body) :
    ∃ st, partsNew (PartDesc.Multi bnd) body = some st := by
  rcases hopt : findOffset bnd body with _ | i
  · have hval : partsNew (PartDesc.Multi bnd) body =
        some ⟨PartDesc.Multi bnd, body, false, 0⟩ := by
      simp only [partsNew, hopt]
      rw [if_neg hb]
    exact ⟨_, hval⟩
  · have hlen : i + bnd.length + 2 ≤ body.length := by
      have hva : ∃ a b, (body.drop (i + bnd.length)).take 2 = [a, b] := by
        rcases hgood i hopt with h | h
        · exact ⟨13, 10, h⟩
        · exact ⟨45, 45, h⟩
      obtain ⟨a, b, hab⟩ := hva
      have := length_ge_two_of_take hab
      simp only [List.length_drop] at this
      omega
    rcases hgood i hopt with h | h
    · have hval : partsNew (PartDesc.Multi bnd) body =
          some ⟨PartDesc.Multi bnd, body, false, i + bnd.length + 2⟩ := by
        simp only [partsNew, hopt]
        rw [if_neg hb, if_neg (by omega), if_pos h]
      exact ⟨_, hval⟩
    · have hval : partsNew (PartDesc.Multi bnd) body =
          some ⟨PartDesc.Multi bnd, body, true, 0⟩ := by
        simp only [partsNew, hopt]
        rw [if_neg hb, if_neg (by omega), h, if_neg (by decide), if_pos rfl]
      exact ⟨_, hval⟩

/-- `Parts::next` returns a value on a multipart state whose pending
window scan is well-framed. -/
theorem partsNext_returns (st : Parts) (bnd : List Nat) (hdone : st.is_done = false)
    (hdesc : st.part_desc = PartDesc.Multi bnd) (hb : bnd ≠ [])
    (hok : ScanReturnOk bnd st.body st.next_start) :
    ∃ r, partsNext st = some r := by
  simp only [partsNext, hdone, hdesc]
  rw [if_neg hb]
  rcases hopt : findOffset bnd (st.body.drop st.next_start) with _ | off0
  · have hno := findOffset_none hb hopt
    rw [scanLoop_no_match bnd st.body (st.body.drop st.next_start) _ 0 st.next_start false
      (fun j _ => hno j)]
    exact ⟨_, rfl⟩
  · obtain ⟨h1, h2, h3⟩ := hok off0 hopt
    obtain ⟨hm, hfirst⟩ := findOffset_some hopt
    have hrange : off0 < 0 + ((st.body.drop st.next_start).length + 1 - bnd.length) := by
      have hlen := congrArg List.length hm
      simp only [List.length_take, List.length_drop] at hlen
      have hbl : 0 < bnd.length := List.length_pos.mpr hb
      have hdl : (st.body.drop st.next_start).length = st.body.length - st.next_start := by
        simp
      omega
    obtain ⟨r, hr⟩ := scanLoop_returns bnd st.body hb
      ((st.body.drop st.next_start).length + 1 - bnd.length) 0 st.next_start off0 false
      (Nat.zero_le _) hrange hfirst hm h1 h2 h3
    rw [hr]
    exact ⟨_, rfl⟩

/-- A body whose first boundary occurrence is well-framed (followed by
CRLF) but whose second occurrence begins immediately after it: an empty
part, placing the next boundary zero bytes past the scan cursor. -/
def c4EmptyBody : List Nat := charBytes (strChars ("--b\r\n--b\r\nxx"))

/-- Scanner state after `Parts::new` on the empty-part body: the
constructor succeeds and part scanning starts at cursor 5. -/
def c4EmptyState : Parts := ⟨PartDesc.Multi c4Boundary, c4EmptyBody, false, 5⟩

/-- Claim C4 counterexample input evaluation is `c4_counterexample`; this
is the amended positive side. Claim C4 amended: classification and part
scanning return typed values exactly away from the code's panic paths:
any non-206 status classifies to a typed failure; a 206 response
classifies to a value provided a multipart content type is at least 21
characters when trimmed and a single-range `Content-Range` does not parse
as unsatisfied; `Parts::new` returns a state provided the first boundary
occurrence, if any, is followed within bounds by CRLF or two hyphens; and
a `Parts::next` step returns a value on finished and single-range states,
and on multipart states provided the first boundary occurrence in the
remaining body, if any, lies at least two bytes past the scan cursor, is
followed within bounds by CRLF or two hyphens, and the bytes before it
form a header block that fails to parse, is incomplete, or contains a
`Content-Type` or `Content-Range` header (see `ScanReturnOk`). Outside
these conditions the code panics rather than returning a typed failure:
the explicit `panic!`/`unreachable!` on bad boundary tails and
unsatisfied ranges, out-of-bounds slices on short multipart content types
and on boundaries at the body edge, and — demonstrated by the final
conjunct — the reversed `Bytes::slice` on an empty part, where
`Parts::new` succeeds yet the first `next` step panics on a body whose
every boundary occurrence is followed by CRLF well inside the body. -/
theorem c4_amended :
    (∀ (status : Nat) (ct cr : Option (List Char)), status ≠ 206 →
      ∃ e, part_description status ct cr = some (Except.error e)) ∧
    (∀ cr, part_description 206 none cr =
      some (Except.error PartialHeaderParseError.NoContentType)) ∧
    (∀ (ct0 : List Char) (cr : Option (List Char)),
      (isPrefixB BYTERANGES (trimChars ct0) = true →
        BYTERANGES.length + 1 ≤ (trimChars ct0).length) →
      (isPrefixB BYTERANGES (trimChars ct0) = false →
        ∀ crs, cr = some crs → ∀ n, contentRangeParseChars crs ≠ ContentRange.Unsatisfied n) →
      ∃ v, part_description 206 (some ct0) cr = some v) ∧
    (∀ bnd body, bnd ≠ [] → GoodFirstBoundary bnd body →
      ∃ st, partsNew (PartDesc.Multi bnd) body = some st) ∧
    (∀ cr ct body, ∃ st, partsNew (PartDesc.Single cr ct) body = some st) ∧
    (∀ st : Parts, st.is_done = true → ∃ r, partsNext st = some r) ∧
    (∀ st : Parts, ∀ cr ct, st.is_done = false → st.part_desc = PartDesc.Single cr ct →
      ∃ r, partsNext st = some r) ∧
    (∀ st : Parts, ∀ bnd, st.is_done = false → st.part_desc = PartDesc.Multi bnd →
      bnd ≠ [] → ScanReturnOk bnd st.body st.next_start →
      ∃ r, partsNext st = some r) ∧
    (partsNew (PartDesc.Multi c4Boundary) c4EmptyBody = some c4EmptyState ∧
      partsNext c4EmptyState = none) := by
  refine ⟨?_, ?_, ?_, partsNew_returns, ?_, ?_, ?_, partsNext_returns, rfl, rfl⟩
  · intro status ct cr h206
    by_cases h416 : status = 416
    · subst h416
      exact ⟨PartialHeaderParseError.Unsatisfied, rfl⟩
    · refine ⟨PartialHeaderParseError.NotPartialResponse status, ?_⟩
      simp [part_description, h206, h416]
  · intro cr; rfl
  · intro ct0 cr hmul hsingle
    have hred : part_description 206 (some ct0) cr =
        (if isPrefixB BYTERANGES (trimChars ct0) then multipartBranch (trimChars ct0)
         else singleBranch (trimChars ct0) cr) := rfl
    rw [hred]
    by_cases hpre : isPrefixB BYTERANGES (trimChars ct0) = true
    · rw [if_pos hpre]
      exact multipartBranch_some (trimChars ct0) hpre (hmul hpre)
    · rw [if_neg hpre]
      exact singleBranch_some (trimChars ct0) cr
        (hsingle (Bool.eq_false_iff.mpr (fun h => hpre h)))
  · intro cr ct body
    exact ⟨_, rfl⟩
  · intro st hdone
    refine ⟨(st, none), ?_⟩
    simp [partsNext, hdone]
  · intro st cr ct hdone hdesc
    exact ⟨(⟨st.part_desc, st.body, true, st.next_start⟩,
      some (Except.ok ⟨ct, cr, st.body⟩)), by simp [partsNext, hdone, hdesc]⟩

/-- Witness for claim C4 amended: instances of its conjuncts at status
404, a plain single-range 206 classification, and the worked well-formed
multipart body. -/
theorem c4_amended_witness :
    (∃ e, part_description 404 none none = some (Except.error e)) ∧
    (∃ v, part_description 206 (some (strChars ("text/plain")))
      (some (strChars ("bytes 0-4/10"))) = some v) ∧
    (∃ st, partsNew (PartDesc.Multi c1Boundary) c1Body = some st) ∧
    (∃ r, partsNext c1StateAfterNew = some r) := by
  refine ⟨c4_amended.1 404 none none (by decide),
    c4_amended.2.2.1 (strChars ("text/plain")) (some (strChars ("bytes 0-4/10"))) ?_ ?_,
    c4_amended.2.2.2.1 c1Boundary c1Body (by decide) ?_,
    c4_amended.2.2.2.2.2.2.2.1 c1StateAfterNew c1Boundary rfl rfl (by decide) ?_⟩
  · intro h
    exact absurd h (by decide)
  · intro _ crs hcrs n
    cases hcrs
    simp [show contentRangeParseChars (strChars ("bytes 0-4/10")) =
      ContentRange.Bytes ⟨0, 4, 10⟩ from by decide]
  · intro i hi
    rw [show findOffset c1Boundary c1Body = some 0 from by decide] at hi
    cases hi
    exact Or.inl (by decide)
  · intro off hoff
    simp only [c1StateAfterNew] at hoff ⊢
    rw [show findOffset c1Boundary (c1Body.drop 5) = some 64 from by decide] at hoff
    cases hoff
    refine ⟨by decide, Or.inr (by decide), Or.inr (Or.inr ?_)⟩
    refine ⟨57,
      [(charBytes (strChars ("Content-Type")), charBytes (strChars ("text/plain"))),
       (charBytes (strChars ("Content-Range")), charBytes (strChars ("bytes 0-4/10")))],
      by decide, ?_⟩
    refine ⟨(charBytes (strChars ("Content-Type")), charBytes (strChars ("text/plain"))),
      List.mem_cons_self _ _, Or.inr (by decide)⟩

end Byteranges
